import Mathlib

/-!
# PeleLM `Source/ArrayViewEXT.H`: a shallow embedding

The header holds debugging helpers that scan a box of cells of an AMReX
array and print what they find.  The development below embeds

* the part of the AMReX index space the helpers walk over (`IntVect`, `Box`,
  `Box::next`), for a three-dimensional build (`BL_SPACEDIM == 3`) with the
  componentwise `IntVect::operator<=`; the loop over a box is shown to be the
  same with the lexicographic order of later versions of the library and in a
  two-dimensional build;
* `Real` as an IEEE-754 binary64 bit pattern (the build without
  `BL_USE_FLOAT`), with the class query behind the `FP_CLASS` macro;
* `BadFPClass`, `FPMax`, `FPMin`, `WriteFab`, `WriteMultiFab`, `PrintTagBox`
  and `TagBoxCount`.

The coordinates of an `IntVect` are 32-bit C `int`s, and a step of `Box::next`
past `INT_MAX` wraps around to `INT_MIN` (`wrapInt`).  A loop over a box whose
big end is `INT_MAX` in some direction therefore leaves the box without ending;
the properties of the loops are stated for boxes whose big end is below
`INT_MAX` in every direction (`Box.belowIntMax`).  `BL_ASSERT(box.ok())` is
modelled as enabled.
-/

set_option exponentiation.threshold 5000
set_option maxRecDepth 100000

namespace PeleLM

/-! ## Index space (AMReX `IntVect` and `Box`) -/

/-- The largest C `int`. -/
def INT_MAX : Int := 2147483647

/-- The smallest C `int`. -/
def INT_MIN : Int := -2147483648

/-- The 32-bit `int` that holds the integer `n` after an arithmetic step:
values outside the range wrap around (two's complement), which is what the
machine does where C++ leaves the overflow of an `int` undefined. -/
def wrapInt (n : Int) : Int := (n + 2147483648) % 4294967296 - 2147483648

/-- An AMReX `IntVect` for `BL_SPACEDIM == 3`: three C `int`s, component 0
being `x`. -/
structure IntVect where
  x : Int
  y : Int
  z : Int
  hx : -2147483648 ≤ x ∧ x ≤ 2147483647
  hy : -2147483648 ≤ y ∧ y ≤ 2147483647
  hz : -2147483648 ≤ z ∧ z ≤ 2147483647
  deriving DecidableEq

/-- AMReX `IntVect::operator<=`: less than or equal in all components. -/
def IntVect.allLE (p q : IntVect) : Bool :=
  decide (p.x ≤ q.x) && decide (p.y ≤ q.y) && decide (p.z ≤ q.z)

/-- AMReX `IntVect::max`: componentwise maximum. -/
def IntVect.max (p q : IntVect) : IntVect :=
  { x := if p.x ≤ q.x then q.x else p.x
    y := if p.y ≤ q.y then q.y else p.y
    z := if p.z ≤ q.z then q.z else p.z
    hx := by have := p.hx; have := q.hx; split <;> assumption
    hy := by have := p.hy; have := q.hy; split <;> assumption
    hz := by have := p.hz; have := q.hz; split <;> assumption }

/-- AMReX `IntVect::min`: componentwise minimum. -/
def IntVect.min (p q : IntVect) : IntVect :=
  { x := if p.x ≤ q.x then p.x else q.x
    y := if p.y ≤ q.y then p.y else q.y
    z := if p.z ≤ q.z then p.z else q.z
    hx := by have := p.hx; have := q.hx; split <;> assumption
    hy := by have := p.hy; have := q.hy; split <;> assumption
    hz := by have := p.hz; have := q.hz; split <;> assumption }

/-- AMReX `IntVect::shift(0,1)`: add one to the first component, as an `int`. -/
def IntVect.shiftX (p : IntVect) : IntVect :=
  { p with x := wrapInt (p.x + 1), hx := by unfold wrapInt; omega }

/-- AMReX `IntVect::shift(1,1)`: add one to the second component, as an `int`. -/
def IntVect.shiftY (p : IntVect) : IntVect :=
  { p with y := wrapInt (p.y + 1), hy := by unfold wrapInt; omega }

/-- AMReX `IntVect::shift(2,1)`: add one to the third component, as an `int`. -/
def IntVect.shiftZ (p : IntVect) : IntVect :=
  { p with z := wrapInt (p.z + 1), hz := by unfold wrapInt; omega }

/-- AMReX `IntVect::setVal(0, v.x)`: set the first component to that of `v`. -/
def IntVect.setX (p v : IntVect) : IntVect := { p with x := v.x, hx := v.hx }

/-- AMReX `IntVect::setVal(1, v.y)`: set the second component to that of `v`. -/
def IntVect.setY (p v : IntVect) : IntVect := { p with y := v.y, hy := v.hy }

/-- An AMReX `Box`: the cells between `smallEnd` and `bigEnd`, both included.
All boxes are taken to have the same index type. -/
structure Box where
  smallEnd : IntVect
  bigEnd : IntVect
  deriving DecidableEq

/-- AMReX `Box::ok`: the big end is not below the small end in any direction. -/
def Box.ok (b : Box) : Bool := b.smallEnd.allLE b.bigEnd

/-- AMReX `Box::contains(const IntVect&)`. -/
def Box.contains (b : Box) (p : IntVect) : Bool :=
  b.smallEnd.allLE p && p.allLE b.bigEnd

/-- AMReX `Box::operator&`: the intersection of two boxes. -/
def Box.inter (a b : Box) : Box :=
  ⟨a.smallEnd.max b.smallEnd, a.bigEnd.min b.bigEnd⟩

/-- Whether the big end of the box is below `INT_MAX` in every direction, so
that no step of `Box::next` from a cell of the box overflows. -/
def Box.belowIntMax (b : Box) : Bool :=
  decide (b.bigEnd.x < 2147483647) && decide (b.bigEnd.y < 2147483647) &&
    decide (b.bigEnd.z < 2147483647)

/-- AMReX `Box::next` for three dimensions: step `p` through the box with the
first index running fastest.
```
p.shift(0,1);
if (!(p <= bigend)) {
  p.setVal(0,smallend[0]); p.shift(1,1);
  if (!(p <= bigend)) { p.setVal(1,smallend[1]); p.shift(2,1); }
}
``` -/
def Box.next (b : Box) (p : IntVect) : IntVect :=
  let p1 := p.shiftX
  if !(p1.allLE b.bigEnd) then
    let p2 := (p1.setX b.smallEnd).shiftY
    if !(p2.allLE b.bigEnd) then
      (p2.setY b.smallEnd).shiftZ
    else p2
  else p1

/-- AMReX `Box::numPts`: the number of cells of the box. -/
def Box.numPts (b : Box) : Nat :=
  (b.bigEnd.x - b.smallEnd.x + 1).toNat *
    ((b.bigEnd.y - b.smallEnd.y + 1).toNat * (b.bigEnd.z - b.smallEnd.z + 1).toNat)

/-- The C loop
`for (IntVect p = start; cond(s) && p <= b.bigEnd(); b.next(p)) s = body(p, s);`
with `fuel` bounding the number of passes through the body.  The result is
`none` when the fuel runs out with the loop condition still true. -/
def Box.forLoop {σ : Type} (b : Box) (cond : σ → Bool) (body : IntVect → σ → σ) :
    Nat → IntVect → σ → Option σ
  | 0, p, s => if cond s && p.allLE b.bigEnd then none else some s
  | fuel + 1, p, s =>
    if cond s && p.allLE b.bigEnd then b.forLoop cond body fuel (b.next p) (body p s)
    else some s

/-- The cells met by stepping `Box::next` from `p` while `p <= bigEnd`,
at most `fuel` of them. -/
def Box.cellsFrom (b : Box) : Nat → IntVect → List IntVect
  | 0, _ => []
  | fuel + 1, p => if p.allLE b.bigEnd then p :: b.cellsFrom fuel (b.next p) else []

/-- The cells of the box in the order in which the loops of the header visit them. -/
def Box.cells (b : Box) : List IntVect := b.cellsFrom b.numPts b.smallEnd

/-- Folding a loop body over a list of cells while the loop condition holds. -/
def scanCells {σ : Type} (cond : σ → Bool) (body : IntVect → σ → σ) : List IntVect → σ → σ
  | [], s => s
  | p :: ps, s => if cond s then scanCells cond body ps (body p s) else s

/-- Position of a cell in the visiting order of a box that contains it. -/
def Box.rank (b : Box) (p : IntVect) : Nat :=
  (p.x - b.smallEnd.x).toNat + (b.bigEnd.x - b.smallEnd.x + 1).toNat *
    ((p.y - b.smallEnd.y).toNat +
      (b.bigEnd.y - b.smallEnd.y + 1).toNat * (p.z - b.smallEnd.z).toNat)

/-- The visiting order: `z` is the slowest index, `x` the fastest. -/
def IntVect.before (p q : IntVect) : Prop :=
  p.z < q.z ∨ (p.z = q.z ∧ (p.y < q.y ∨ (p.y = q.y ∧ p.x < q.x)))


/-! ### The same loop in other builds of the library

Later versions of AMReX order `IntVect`s lexicographically, last index first,
and test single components in `Box::next`; a two-dimensional build has no third
index (here: a third index fixed at 0).  The definitions below state these
variants, and `Box.forLoop_eq_lex`, `Box.forLoop_eq_flat` and
`Box.forLoop_eq_flat_lex` show that the loop is the same in each of them. -/

/-- A loop like `Box.forLoop`, with the test on the index and the step to the
next index as parameters. -/
def forLoopWith {σ : Type} (test : IntVect → Bool) (step : IntVect → IntVect)
    (cond : σ → Bool) (body : IntVect → σ → σ) : Nat → IntVect → σ → Option σ
  | 0, p, s => if cond s && test p then none else some s
  | fuel + 1, p, s =>
    if cond s && test p then forLoopWith test step cond body fuel (step p) (body p s)
    else some s

/-- The lexicographic `IntVect::operator<`: the last index is the most
significant. -/
def IntVect.lexLT (p q : IntVect) : Bool :=
  decide (p.z < q.z) || (decide (p.z = q.z) &&
    (decide (p.y < q.y) || (decide (p.y = q.y) && decide (p.x < q.x))))

/-- The lexicographic `IntVect::operator<=`: `!(rhs < *this)`. -/
def IntVect.lexLE (p q : IntVect) : Bool := !(q.lexLT p)

/-- The variant of `Box::next` that tests single components:
```
++p[0];
if (p[0] > bigend[0]) {
  p[0] = smallend[0]; ++p[1];
  if (p[1] > bigend[1]) { p[1] = smallend[1]; ++p[2]; }
}
``` -/
def Box.nextByComponent (b : Box) (p : IntVect) : IntVect :=
  let p1 := p.shiftX
  if b.bigEnd.x < p1.x then
    let p2 := (p1.setX b.smallEnd).shiftY
    if b.bigEnd.y < p2.y then
      (p2.setY b.smallEnd).shiftZ
    else p2
  else p1

/-- The two-dimensional `Box::next`:
`p.shift(0,1); if (!(p <= bigend)) { p.setVal(0,smallend[0]); p.shift(1,1); }`. -/
def Box.next2 (b : Box) (p : IntVect) : IntVect :=
  let p1 := p.shiftX
  if !(p1.allLE b.bigEnd) then (p1.setX b.smallEnd).shiftY else p1

/-- The two-dimensional `Box::next` that tests single components. -/
def Box.next2ByComponent (b : Box) (p : IntVect) : IntVect :=
  let p1 := p.shiftX
  if b.bigEnd.x < p1.x then (p1.setX b.smallEnd).shiftY else p1

/-- A box of a two-dimensional build: its third index is fixed at 0. -/
def Box.flat (b : Box) : Bool := decide (b.smallEnd.z = 0) && decide (b.bigEnd.z = 0)

/-! ## Floating point (`Real` is `double`) -/

/-- A `Real`: the three fields of an IEEE-754 binary64 number, the sign bit,
the 11-bit biased exponent and the 52-bit fraction. -/
structure Real where
  sign : Bool
  expo : Nat
  frac : Nat
  expo_lt : expo < 2048
  frac_lt : frac < 4503599627370496
  deriving DecidableEq

/-- Class codes of `<fp_class.h>`, the header of the `fp_class` query. -/
def FP_SNAN : Int := 0
/-- Quiet NaN. -/
def FP_QNAN : Int := 1
/-- Plus infinity. -/
def FP_POS_INF : Int := 2
/-- Minus infinity. -/
def FP_NEG_INF : Int := 3
/-- Positive normalized. -/
def FP_POS_NORM : Int := 4
/-- Negative normalized. -/
def FP_NEG_NORM : Int := 5
/-- Positive denormalized. -/
def FP_POS_DENORM : Int := 6
/-- Negative denormalized. -/
def FP_NEG_DENORM : Int := 7
/-- Plus zero. -/
def FP_POS_ZERO : Int := 8
/-- Minus zero. -/
def FP_NEG_ZERO : Int := 9

/-- The platform query `fp_class(double)`: the class of a binary64 number,
read off its exponent and fraction fields.  A NaN is taken as quiet when the
top bit of its fraction is set; `BadFPClass` treats both kinds of NaN alike. -/
def fp_class (x : Real) : Int :=
  if x.expo = 2047 then
    if x.frac = 0 then (if x.sign then FP_NEG_INF else FP_POS_INF)
    else if 2251799813685248 ≤ x.frac then FP_QNAN else FP_SNAN
  else if x.expo = 0 then
    if x.frac = 0 then (if x.sign then FP_NEG_ZERO else FP_POS_ZERO)
    else (if x.sign then FP_NEG_DENORM else FP_POS_DENORM)
  else (if x.sign then FP_NEG_NORM else FP_POS_NORM)

/-- The macro `FP_CLASS`, which is `fp_class` when `BL_USE_FLOAT` is not set. -/
def FP_CLASS (x : Real) : Int := fp_class x

/-- The `switch` of `BadFPClass`, on the class code. -/
def BadFPClass.switch (c : Int) : Bool :=
  if c = FP_SNAN ∨ c = FP_QNAN ∨ c = FP_POS_INF ∨ c = FP_NEG_INF ∨
      c = FP_POS_DENORM ∨ c = FP_NEG_DENORM then true
  else if c = FP_POS_NORM ∨ c = FP_NEG_NORM ∨ c = FP_POS_ZERO ∨ c = FP_NEG_ZERO then false
  else true

/-- `bool BadFPClass(Real fpNumber)`. -/
def BadFPClass (fpNumber : Real) : Bool := BadFPClass.switch (FP_CLASS fpNumber)

/-- The magnitude of a number in units of `2^-1074`: a finite `x` has
absolute value `x.mag / 2^1074`.  An infinity gets `2^2098`, above every
finite magnitude. -/
def Real.mag (x : Real) : Nat :=
  if x.expo = 0 then x.frac else (4503599627370496 + x.frac) * 2 ^ (x.expo - 1)

/-- The signed value in units of `2^-1074`. -/
def Real.scaled (x : Real) : Int := if x.sign then -(x.mag : Int) else (x.mag : Int)

/-- Whether the number is a NaN. -/
def Real.isNaN (x : Real) : Bool := decide (x.expo = 2047) && decide (x.frac ≠ 0)

/-- The C comparison `a < b` on `double`: false when either side is a NaN. -/
def Real.lt (a b : Real) : Bool := !a.isNaN && !b.isNaN && decide (a.scaled < b.scaled)

/-- The C comparison `a > b` on `double`. -/
def Real.gt (a b : Real) : Bool := b.lt a

/-- The library template `Max`: `(a > b) ? a : b`. -/
def Max (a b : Real) : Real := if a.gt b then a else b

/-- The library template `Min`: `(a < b) ? a : b`. -/
def Min (a b : Real) : Real := if a.lt b then a else b

/-! ## `snprintf` with the format `"%8.4e"` -/

/-- `const int MAXSTRINGWIDTH = 14;` -/
def MAXSTRINGWIDTH : Nat := 14

/-- Whether a magnitude `m` (in units of `2^-1074`) is below `10^j`. -/
def magLtPow10 (m : Nat) (j : Int) : Bool :=
  if 0 ≤ j then decide (m < 2 ^ 1074 * 10 ^ j.toNat)
  else decide (m * 10 ^ (-j).toNat < 2 ^ 1074)

/-- Search upwards from `e` for the first exponent whose next power of ten
exceeds the magnitude. -/
def decExpFrom (m : Nat) : Nat → Int → Int
  | 0, e => e
  | n + 1, e => if magLtPow10 m (e + 1) then e else decExpFrom m n (e + 1)

/-- The decimal exponent `e` of a non-zero magnitude: `10^e ≤ |x| < 10^(e+1)`.
Every non-zero binary64 magnitude lies between `10^-324` and `10^309`. -/
def decExp (m : Nat) : Int := decExpFrom m 640 (-324)

/-- The magnitude divided by `10^(e-4)`, rounded to the nearest integer, ties
to even: the five significant digits of a `%.4e` conversion. -/
def sigDigits (m : Nat) (e : Int) : Nat :=
  let num := if e ≤ 4 then m * 10 ^ (4 - e).toNat else m
  let den := if e ≤ 4 then 2 ^ 1074 else 2 ^ 1074 * 10 ^ (e - 4).toNat
  let q := num / den
  let r := num % den
  if den < 2 * r ∨ (2 * r = den ∧ q % 2 = 1) then q + 1 else q

/-- The digits and the exponent of the `%.4e` conversion of a magnitude; a
carry out of the rounding moves the exponent up. -/
def sciParts (m : Nat) : Nat × Int :=
  if m = 0 then (0, 0)
  else
    let e := decExp m
    let d := sigDigits m e
    if 100000 ≤ d then (d / 10, e + 1) else (d, e)

/-- The exponent field of a `%e` conversion: at least two digits. -/
def expDigits (a : Nat) : List Char :=
  if a < 10 then ['0', Nat.digitChar a] else Nat.toDigits 10 a

/-- The characters `[-]d.dddde±dd` of a `%.4e` conversion. -/
def sciChars (neg : Bool) (d : Nat) (e : Int) : List Char :=
  (if neg then ['-'] else []) ++
    [Nat.digitChar (d / 10000), '.', Nat.digitChar (d / 1000 % 10), Nat.digitChar (d / 100 % 10),
      Nat.digitChar (d / 10 % 10), Nat.digitChar (d % 10), 'e', if e < 0 then '-' else '+'] ++
    expDigits e.natAbs

/-- Pad on the left with blanks to a minimum field width. -/
def padLeft (width : Nat) (cs : List Char) : List Char :=
  List.replicate (width - cs.length) ' ' ++ cs

/-- The complete output of a conversion of `x` with the format `"%8.4e"`
(`formatString`), as the C library produces it when the buffer is large
enough. -/
def formatE (x : Real) : String :=
  if x.expo = 2047 then
    String.mk (padLeft 8 ((if x.sign then ['-'] else []) ++
      (if x.frac = 0 then ['i', 'n', 'f'] else ['n', 'a', 'n'])))
  else
    String.mk (padLeft 8 (sciChars x.sign (sciParts x.mag).1 (sciParts x.mag).2))

/-- `snprintf(tmp, size, "%8.4e", x)`: the buffer holds at most `size - 1`
characters of the output, and the return value is the length of the complete
output. -/
def snprintf (size : Nat) (x : Real) : String × Nat :=
  (String.mk ((formatE x).data.take (size - 1)), (formatE x).length)

/-! ## Arrays and the min/max scans -/

/-- An AMReX `FArrayBox`: `Real` data with `nvar` components on the cells of
`box`.  `data p n` is the value that `fab(p, n)` reads; at an index `p` outside
the box it stands for whatever the unchecked read finds in memory. -/
structure FArrayBox where
  box : Box
  nvar : Nat
  data : IntVect → Int → Real

/-- What a call of `FPMax` or `FPMin` ends with. -/
inductive Outcome where
  /-- The function returned this string. -/
  | returned (s : String)
  /-- The process ended in `amrex::Abort` with this message. -/
  | aborted (msg : String)
  /-- `BL_ASSERT(box.ok())` failed. -/
  | assertFailed
  deriving DecidableEq

/-- The local variables of `FPMax` and `FPMin` (`dataM` is `dataMax` or
`dataMin`), together with the record `reads` of the reads `fab(idx, nComp)`
done so far, oldest first. -/
structure ScanState where
  dataM : Real
  dataString : String
  badVal : Bool
  reads : List (IntVect × Int)

/-- The body of the loop of `FPMax` (`pick` is `Max`) and of `FPMin` (`pick` is
`Min`), at the cell `idx`. -/
def scanBody (pick : Real → Real → Real) (fab : FArrayBox) (nComp : Int)
    (idx : IntVect) (s : ScanState) : ScanState :=
  let val := fab.data idx nComp
  if BadFPClass val then
    { s with dataString := "*** Bad Float Value ***", badVal := true,
             reads := s.reads ++ [(idx, nComp)] }
  else
    { s with dataM := pick val s.dataM, reads := s.reads ++ [(idx, nComp)] }

/-- The condition `!badVal` of the loop of `FPMax` and `FPMin`. -/
def scanCond (s : ScanState) : Bool := !s.badVal

/-- The state of `FPMax` and `FPMin` when the loop is entered: `dataM` has been
read at the small end of the box. -/
def scanInit (fab : FArrayBox) (box : Box) (nComp : Int) : ScanState :=
  { dataM := fab.data box.smallEnd nComp, dataString := "", badVal := false,
    reads := [(box.smallEnd, nComp)] }

/-- The code of `FPMax` and `FPMin` after the loop, with the label (`"Max: "`
or `"Min: "`) and the abort message of the function. -/
def scanFinish (label msg : String) (s : ScanState) : Outcome :=
  if !s.badVal then
    let r := snprintf MAXSTRINGWIDTH s.dataM
    if MAXSTRINGWIDTH ≤ r.2 then Outcome.aborted msg
    else Outcome.returned (label ++ r.1)
  else Outcome.returned (label ++ s.dataString)

/-- `std::string FPMax(const FArrayBox& fab, const Box& inBox, int nComp)`,
with the fuel of its loop.  The result is `none` when the fuel runs out, and
otherwise the outcome with the reads done. -/
def FPMax (fuel : Nat) (fab : FArrayBox) (inBox : Box) (nComp : Int) :
    Option (Outcome × List (IntVect × Int)) :=
  let box := inBox.inter fab.box
  if !box.ok then some (Outcome.assertFailed, [])
  else
    match box.forLoop scanCond (scanBody Max fab nComp) fuel box.smallEnd
        (scanInit fab box nComp) with
    | none => none
    | some s => some (scanFinish "Max: " "FPMax: buffer too small" s, s.reads)

/-- `std::string FPMin(const FArrayBox& fab, const Box& inBox, int nComp)`,
with the fuel of its loop. -/
def FPMin (fuel : Nat) (fab : FArrayBox) (inBox : Box) (nComp : Int) :
    Option (Outcome × List (IntVect × Int)) :=
  let box := inBox.inter fab.box
  if !box.ok then some (Outcome.assertFailed, [])
  else
    match box.forLoop scanCond (scanBody Min fab nComp) fuel box.smallEnd
        (scanInit fab box nComp) with
    | none => none
    | some s => some (scanFinish "Min: " "FPMin: buffer too small" s, s.reads)

/-! ## Tag boxes -/

/-- An AMReX `TagBox`: one tag (a `char`) on each cell of `box`; `tag p` is the
value that `tb(p)` reads, also at an index outside the box. -/
structure TAGBOX where
  box : Box
  tag : IntVect → Int

/-- The tag value `TagBox::CLEAR`. -/
def TAGBOX.CLEAR : Int := 0

/-- One item sent to `cout`. -/
inductive Out where
  | str (s : String)
  | chr (c : Char)
  | box (b : Box)
  | intVect (p : IntVect)
  | long (n : Int)
  | endl
  deriving DecidableEq

/-- The body of the loop of `TagBoxCount`: `if (!(tb(p) == TAGBOX::CLEAR)) count++;`. -/
def tagCountBody (tb : TAGBOX) (p : IntVect) (count : Int) : Int :=
  if !(tb.tag p == TAGBOX.CLEAR) then count + 1 else count

/-- `void TagBoxCount (const TAGBOX& tb)`: the items sent to `cout`.  The
`long count` is an integer without a bound: an array has fewer than `2^63`
cells. -/
def TagBoxCount (fuel : Nat) (tb : TAGBOX) : Option (List Out) :=
  let bx := tb.box
  match bx.forLoop (fun _ => true) (tagCountBody tb) fuel bx.smallEnd 0 with
  | none => none
  | some count => some [Out.str "Total tagged cells = ", Out.long count, Out.endl]

/-- The body of the loop of `PrintTagBox`, on the pair of `count` and the
items sent to `cout` so far. -/
def printTagBody (tb : TAGBOX) (p : IntVect) (s : Int × List Out) : Int × List Out :=
  if !(tb.tag p == TAGBOX.CLEAR) then (s.1 + 1, s.2 ++ [Out.intVect p, Out.chr ' ']) else s

/-- `void PrintTagBox (const TAGBOX& tb)`: the items sent to `cout`. -/
def PrintTagBox (fuel : Nat) (tb : TAGBOX) : Option (List Out) :=
  let bx := tb.box
  match bx.forLoop (fun _ => true) (printTagBody tb) fuel bx.smallEnd
      (0, [Out.str "TagBox: box = ", Out.box bx, Out.str ":\n"]) with
  | none => none
  | some s => some (s.2 ++ [Out.str "Total tagged cells = ", Out.long s.1, Out.endl])

/-! ## Dumps to a file -/

/-- An AMReX `MultiFab`, as far as the header looks into it. -/
structure MultiFab where
  fabs : List FArrayBox
  boxArray : List Box

/-- The part of the outside world that `WriteFab` and `WriteMultiFab` touch:
the files, which of them can be opened for writing, the items sent to `cout`,
and the number of calls of a `writeOn` routine so far. -/
structure World where
  canOpen : String → Bool
  files : String → Option (List Nat)
  cout : List Out
  writeOnCalls : Nat

/-- `ofstream os(file, ios::out)`: when the file cannot be opened the stream
is in a failed state and the file system is untouched; otherwise the file now
exists and is empty. -/
def World.openOut (w : World) (file : String) : Option World :=
  if w.canOpen file then
    some { w with files := fun f => if f = file then some [] else w.files f }
  else none

/-- A call of `writeOn(os)` on a stream open on `file`: the bytes of the dump
are appended to the file. -/
def World.writeOn (w : World) (file : String) (bytes : List Nat) : World :=
  { w with files := fun f => if f = file then some ((w.files f).getD [] ++ bytes) else w.files f,
           writeOnCalls := w.writeOnCalls + 1 }

/-- `bool WriteFab(const FArrayBox* fab, const char* file)`, for a valid
pointer `fab`; `dump` is the byte layout of the library's `FArrayBox::writeOn`. -/
def WriteFab (dump : FArrayBox → List Nat) (fab : FArrayBox) (file : String) (w : World) :
    Bool × World :=
  match w.openOut file with
  | none =>
    (false, { w with cout := w.cout ++
      [Out.str "writeFab: Cannot write to output file!", Out.endl] })
  | some w1 => (true, w1.writeOn file (dump fab))

/-- `bool WriteMultiFab(const MultiFab* mf, const char* file)`, for a valid
pointer `mf`; `dump` is the byte layout of the library's `writeOn`. -/
def WriteMultiFab (dump : MultiFab → List Nat) (mf : MultiFab) (file : String) (w : World) :
    Bool × World :=
  match w.openOut file with
  | none =>
    (false, { w with cout := w.cout ++
      [Out.str "writeMultiFab: Cannot write to output file!", Out.endl] })
  | some w1 => (true, w1.writeOn file (dump mf))

/-! ## Notions used to state the properties -/

/-- The cells of a list up to and including the first one that `bad` holds of. -/
def takeThrough (bad : IntVect → Bool) : List IntVect → List IntVect
  | [] => []
  | p :: ps => if bad p then [p] else p :: takeThrough bad ps

/-- Whether the cell `p` of the array holds a bad value in component `nComp`. -/
def FArrayBox.badAt (fab : FArrayBox) (nComp : Int) (p : IntVect) : Bool :=
  BadFPClass (fab.data p nComp)

/-- The state in which the loop of `FPMax` (`pick` is `Max`) or `FPMin` (`pick`
is `Min`) ends on the box `box`, as a fold over the cells of the box. -/
def scanRun (pick : Real → Real → Real) (fab : FArrayBox) (box : Box) (nComp : Int) :
    ScanState :=
  scanCells scanCond (scanBody pick fab nComp) box.cells (scanInit fab box nComp)

/-- The exact value of a finite number, as a rational. -/
def Real.toRat (x : Real) : ℚ := (x.scaled : ℚ) / 2 ^ 1074

/-- The number that a conversion with sign, digits `d` and exponent `e`
denotes: `± d / 10^4 × 10^e`. -/
def sciValue (neg : Bool) (d : Nat) (e : Int) : ℚ :=
  (if neg then -1 else 1) * (d : ℚ) / 10 ^ 4 * (10 : ℚ) ^ e

/-- The value of a string of decimal digits, most significant first. -/
def digitsValue (cs : List Char) : Option Nat :=
  cs.foldl (fun acc c =>
    match acc with
    | some n => if '0' ≤ c ∧ c ≤ '9' then some (10 * n + (c.toNat - 48)) else none
    | none => none) (some 0)

/-- Read back the sign, the five digits and the exponent of a number printed
as `[-]d.dddde±dd`, after any leading blanks. -/
def parseSci (cs : List Char) : Option (Bool × Nat × Int) :=
  let cs1 := cs.dropWhile (fun c => c == ' ')
  let neg := cs1.head? == some '-'
  let cs2 := if neg then cs1.drop 1 else cs1
  match cs2 with
  | d0 :: '.' :: d1 :: d2 :: d3 :: d4 :: 'e' :: sg :: ex =>
    match digitsValue [d0, d1, d2, d3, d4], digitsValue ex with
    | some d, some a =>
      if sg = '+' then some (neg, d, (a : Int))
      else if sg = '-' then some (neg, d, -(a : Int))
      else none
    | _, _ => none
  | _ => none

/-- The number printed in a string returned by `FPMax` or `FPMin`, after the
five characters of the label: its sign, digits and exponent. -/
def reportedNumber (o : Outcome) : Option (Bool × Nat × Int) :=
  match o with
  | Outcome.returned str => parseSci (str.data.drop 5)
  | _ => none

/-- The cells of a tag box whose tag is not `CLEAR`, in visiting order. -/
def taggedCells (tb : TAGBOX) : List IntVect :=
  tb.box.cells.filter (fun p => !(tb.tag p == TAGBOX.CLEAR))

/-! ### Sample inputs -/

/-- The number `1.0`. -/
def sampleOne : Real := ⟨false, 1023, 0, by decide, by decide⟩

/-- The number `1 + 2^-52`, the successor of `1.0`. -/
def sampleOneUp : Real := ⟨false, 1023, 1, by decide, by decide⟩

/-- The number `2 - 2^-52`, the predecessor of `2.0`. -/
def sampleTwoDown : Real := ⟨false, 1023, 4503599627370495, by decide, by decide⟩

/-- The number `-2.0`. -/
def sampleMinusTwo : Real := ⟨true, 1024, 0, by decide, by decide⟩

/-- A quiet NaN. -/
def sampleNaN : Real := ⟨false, 2047, 2251799813685248, by decide, by decide⟩

/-- The cell `(0,0,0)`. -/
def cell0 : IntVect := ⟨0, 0, 0, by decide, by decide, by decide⟩

/-- The cell `(1,0,0)`. -/
def cell1 : IntVect := ⟨1, 0, 0, by decide, by decide, by decide⟩

/-- The box of the two cells `(0,0,0)` and `(1,0,0)`. -/
def sampleBox : Box := ⟨cell0, cell1⟩

/-- The cell `(INT_MAX - 1, 0, 0)`. -/
def cellA : IntVect := ⟨2147483646, 0, 0, by decide, by decide, by decide⟩

/-- The cell `(INT_MAX, 0, 0)`. -/
def cellB : IntVect := ⟨2147483647, 0, 0, by decide, by decide, by decide⟩

/-- The cell `(INT_MIN, 0, 0)`. -/
def cellOut : IntVect := ⟨-2147483648, 0, 0, by decide, by decide, by decide⟩

/-- The box of the two cells `(INT_MAX - 1, 0, 0)` and `(INT_MAX, 0, 0)`. -/
def boxMax : Box := ⟨cellA, cellB⟩

/-- An array on `box` whose reads give a quiet NaN at the indices that `bad`
holds of and `1.0` at all others, inside the box or not. -/
def nanFab (box : Box) (bad : IntVect → Bool) : FArrayBox :=
  { box := box, nvar := 1, data := fun p _ => if bad p then sampleNaN else sampleOne }

/-- A tag box on `boxMax` whose reads give the tag `CLEAR` everywhere. -/
def clearTagsMax : TAGBOX := { box := boxMax, tag := fun _ => TAGBOX.CLEAR }

/-- An array on `boxMax` whose reads give `1.0` everywhere. -/
def goodFabMax : FArrayBox := nanFab boxMax (fun _ => false)

/-- An array on `boxMax`, with `1.0` on both cells of the box, whose read at
`(INT_MIN, 0, 0)`, an index outside the box, gives a NaN. -/
def nanFabOut : FArrayBox := nanFab boxMax (fun p => p == cellOut)

/-- An array on `sampleBox` holding `a` at `(0,0,0)` and `b` everywhere else. -/
def sampleFab (a b : Real) : FArrayBox :=
  { box := sampleBox, nvar := 1, data := fun p _ => if p = cell0 then a else b }

/-- A tag box on `sampleBox` with the tag `t0` at `(0,0,0)` and `t1` elsewhere. -/
def sampleTags (t0 t1 : Int) : TAGBOX :=
  { box := sampleBox, tag := fun p => if p = cell0 then t0 else t1 }

/-- A world in which only the file `"out.fab"` can be opened, with no files. -/
def sampleWorld : World :=
  { canOpen := fun f => f == "out.fab", files := fun _ => none, cout := [], writeOnCalls := 0 }

/-! ## Lemmas on the iteration -/

theorem IntVect.allLE_iff (p q : IntVect) :
    p.allLE q = true ↔ p.x ≤ q.x ∧ p.y ≤ q.y ∧ p.z ≤ q.z := by
  simp [IntVect.allLE, and_assoc]

theorem IntVect.allLE_eq_false_iff (p q : IntVect) :
    p.allLE q = false ↔ ¬ (p.x ≤ q.x ∧ p.y ≤ q.y ∧ p.z ≤ q.z) := by
  rw [← IntVect.allLE_iff]; simp

theorem Box.contains_iff (b : Box) (p : IntVect) :
    b.contains p = true ↔
      (b.smallEnd.x ≤ p.x ∧ b.smallEnd.y ≤ p.y ∧ b.smallEnd.z ≤ p.z) ∧
      (p.x ≤ b.bigEnd.x ∧ p.y ≤ b.bigEnd.y ∧ p.z ≤ b.bigEnd.z) := by
  simp [Box.contains, IntVect.allLE_iff]

theorem Box.contains_inter (a b : Box) (p : IntVect) :
    (a.inter b).contains p = true ↔ a.contains p = true ∧ b.contains p = true := by
  simp only [Box.contains_iff, Box.inter, IntVect.max, IntVect.min]
  constructor
  · intro h
    split_ifs at h <;> omega
  · intro h
    split_ifs <;> omega

theorem Box.contains_smallEnd (b : Box) (h : b.ok = true) : b.contains b.smallEnd = true := by
  simp only [Box.ok, IntVect.allLE_iff] at h
  simp only [Box.contains_iff]
  omega

theorem IntVect.eq_iff (p q : IntVect) : p = q ↔ p.x = q.x ∧ p.y = q.y ∧ p.z = q.z := by
  cases p; cases q; simp

theorem wrapInt_eq (n : Int) (h1 : -2147483648 ≤ n) (h2 : n ≤ 2147483647) : wrapInt n = n := by
  unfold wrapInt; omega

theorem Box.belowIntMax_iff (b : Box) :
    b.belowIntMax = true ↔
      b.bigEnd.x < 2147483647 ∧ b.bigEnd.y < 2147483647 ∧ b.bigEnd.z < 2147483647 := by
  simp [Box.belowIntMax, and_assoc]

theorem Box.rank_lt_numPts (b : Box) (p : IntVect) (h : b.contains p = true) :
    b.rank p < b.numPts := by
  rw [Box.contains_iff] at h
  obtain ⟨⟨h1, h2, h3⟩, h4, h5, h6⟩ := h
  unfold Box.rank Box.numPts
  obtain ⟨nx, hnx⟩ : ∃ n : Nat, (b.bigEnd.x - b.smallEnd.x + 1).toNat = n := ⟨_, rfl⟩
  obtain ⟨ny, hny⟩ : ∃ n : Nat, (b.bigEnd.y - b.smallEnd.y + 1).toNat = n := ⟨_, rfl⟩
  obtain ⟨nz, hnz⟩ : ∃ n : Nat, (b.bigEnd.z - b.smallEnd.z + 1).toNat = n := ⟨_, rfl⟩
  obtain ⟨dx, hdx⟩ : ∃ n : Nat, (p.x - b.smallEnd.x).toNat = n := ⟨_, rfl⟩
  obtain ⟨dy, hdy⟩ : ∃ n : Nat, (p.y - b.smallEnd.y).toNat = n := ⟨_, rfl⟩
  obtain ⟨dz, hdz⟩ : ∃ n : Nat, (p.z - b.smallEnd.z).toNat = n := ⟨_, rfl⟩
  rw [hnx, hny, hnz, hdx, hdy, hdz]
  have ex : dx + 1 ≤ nx := by omega
  have ey : dy + 1 ≤ ny := by omega
  have ez : dz + 1 ≤ nz := by omega
  have e1 : ny * (dz + 1) ≤ ny * nz := Nat.mul_le_mul_left _ ez
  have e2 : nx * (dy + 1 + ny * dz) ≤ nx * (ny * nz) :=
    Nat.mul_le_mul_left _ (by rw [Nat.mul_succ] at e1; omega)
  have e3 : nx * (dy + 1 + ny * dz) = nx * (dy + ny * dz) + nx := by ring
  omega

theorem IntVect.before_irrefl (p : IntVect) : ¬ p.before p := by
  unfold IntVect.before; omega

theorem IntVect.before_trans {p q r : IntVect} (h1 : p.before q) (h2 : q.before r) :
    p.before r := by
  unfold IntVect.before at *; omega

/-- The components of a step of `Box::next` from a cell of a box whose big end
is below `INT_MAX`: the step stays in the row, starts the next row, or starts
the next plane. -/
theorem Box.next_cases (b : Box) (p : IntVect) (hp : b.contains p = true)
    (hmax : b.belowIntMax = true) :
    (p.x + 1 ≤ b.bigEnd.x ∧
      (b.next p).x = p.x + 1 ∧ (b.next p).y = p.y ∧ (b.next p).z = p.z) ∨
    (b.bigEnd.x < p.x + 1 ∧ p.y + 1 ≤ b.bigEnd.y ∧
      (b.next p).x = b.smallEnd.x ∧ (b.next p).y = p.y + 1 ∧ (b.next p).z = p.z) ∨
    (b.bigEnd.x < p.x + 1 ∧ b.bigEnd.y < p.y + 1 ∧
      (b.next p).x = b.smallEnd.x ∧ (b.next p).y = b.smallEnd.y ∧
      (b.next p).z = p.z + 1) := by
  rw [Box.contains_iff] at hp
  rw [Box.belowIntMax_iff] at hmax
  obtain ⟨⟨h1, h2, h3⟩, h4, h5, h6⟩ := hp
  have bx := b.smallEnd.hx
  have by1 := b.smallEnd.hy
  have bz := b.smallEnd.hz
  have wx : wrapInt (p.x + 1) = p.x + 1 := wrapInt_eq _ (by omega) (by omega)
  have wy : wrapInt (p.y + 1) = p.y + 1 := wrapInt_eq _ (by omega) (by omega)
  have wz : wrapInt (p.z + 1) = p.z + 1 := wrapInt_eq _ (by omega) (by omega)
  have hlx : b.smallEnd.x ≤ b.bigEnd.x := by omega
  have hly : b.smallEnd.y ≤ b.bigEnd.y := by omega
  by_cases hx : p.x + 1 ≤ b.bigEnd.x
  · left
    simp [Box.next, IntVect.shiftX, IntVect.allLE, wx, hx, h5, h6]
  · right
    by_cases hy : p.y + 1 ≤ b.bigEnd.y
    · left
      simp [Box.next, IntVect.shiftX, IntVect.shiftY, IntVect.setX, IntVect.allLE, wx, wy,
        hx, hy, h6, hlx]
      omega
    · right
      simp [Box.next, IntVect.shiftX, IntVect.shiftY, IntVect.shiftZ, IntVect.setX, IntVect.setY,
        IntVect.allLE, wx, wy, wz, hx, hy, hlx]
      omega

/-- One step of `Box::next` from a cell of a box whose big end is below
`INT_MAX`: either it lands on the next cell of the box in visiting order, or
the cell was the last one and the step leaves the box through the big end. -/
theorem Box.next_spec (b : Box) (p : IntVect) (hp : b.contains p = true)
    (hmax : b.belowIntMax = true) :
    (b.contains (b.next p) = true ∧ p.before (b.next p) ∧ b.rank (b.next p) = b.rank p + 1 ∧
      ∀ q, b.contains q = true → p.before q → q = b.next p ∨ (b.next p).before q) ∨
    ((b.next p).allLE b.bigEnd = false ∧ ∀ q, b.contains q = true → ¬ p.before q) := by
  have hc := b.next_cases p hp hmax
  rw [Box.contains_iff] at hp
  obtain ⟨⟨h1, h2, h3⟩, h4, h5, h6⟩ := hp
  have hfar : ∀ q, b.contains q = true → p.before q → ¬ (q = b.next p) →
      ¬ (q.x = (b.next p).x ∧ q.y = (b.next p).y ∧ q.z = (b.next p).z) :=
    fun q _ _ hne he => hne ((IntVect.eq_iff q (b.next p)).2 he)
  rcases hc with ⟨hx, ex, ey, ez⟩ | ⟨hx, hy, ex, ey, ez⟩ | ⟨hx, hy, ex, ey, ez⟩
  · -- the step stays in the row
    left
    refine ⟨?_, ?_, ?_, ?_⟩
    · rw [Box.contains_iff]; omega
    · unfold IntVect.before; omega
    · unfold Box.rank
      rw [ex, ey, ez]
      have : (p.x + 1 - b.smallEnd.x).toNat = (p.x - b.smallEnd.x).toNat + 1 := by omega
      rw [this]; omega
    · intro q hq hb
      by_cases hq1 : q = b.next p
      · exact Or.inl hq1
      · right
        have := hfar q hq hb hq1
        rw [Box.contains_iff] at hq
        unfold IntVect.before at *; omega
  · -- the step starts the next row
    left
    refine ⟨?_, ?_, ?_, ?_⟩
    · rw [Box.contains_iff]; omega
    · unfold IntVect.before; omega
    · unfold Box.rank
      rw [ex, ey, ez]
      have e1 : (b.smallEnd.x - b.smallEnd.x).toNat = 0 := by omega
      have e2 : (p.y + 1 - b.smallEnd.y).toNat = (p.y - b.smallEnd.y).toNat + 1 := by omega
      have e3 : (p.x - b.smallEnd.x).toNat + 1 = (b.bigEnd.x - b.smallEnd.x + 1).toNat := by
        omega
      rw [e1, e2, ← e3]; ring
    · intro q hq hb
      by_cases hq1 : q = b.next p
      · exact Or.inl hq1
      · right
        have := hfar q hq hb hq1
        rw [Box.contains_iff] at hq
        unfold IntVect.before at *; omega
  · by_cases hz : p.z + 1 ≤ b.bigEnd.z
    · -- the step starts the next plane
      left
      refine ⟨?_, ?_, ?_, ?_⟩
      · rw [Box.contains_iff]; omega
      · unfold IntVect.before; omega
      · unfold Box.rank
        rw [ex, ey, ez]
        have e1 : (b.smallEnd.x - b.smallEnd.x).toNat = 0 := by omega
        have e0 : (b.smallEnd.y - b.smallEnd.y).toNat = 0 := by omega
        have e2 : (p.z + 1 - b.smallEnd.z).toNat = (p.z - b.smallEnd.z).toNat + 1 := by omega
        have e3 : (p.x - b.smallEnd.x).toNat + 1 = (b.bigEnd.x - b.smallEnd.x + 1).toNat := by
          omega
        have e4 : (p.y - b.smallEnd.y).toNat + 1 = (b.bigEnd.y - b.smallEnd.y + 1).toNat := by
          omega
        rw [e1, e0, e2, ← e3, ← e4]; ring
      · intro q hq hb
        by_cases hq1 : q = b.next p
        · exact Or.inl hq1
        · right
          have := hfar q hq hb hq1
          rw [Box.contains_iff] at hq
          unfold IntVect.before at *; omega
    · -- the cell was the big end
      right
      refine ⟨?_, ?_⟩
      · rw [IntVect.allLE_eq_false_iff]; omega
      · intro q hq hb
        rw [Box.contains_iff] at hq
        unfold IntVect.before at hb; omega

theorem Box.cellsFrom_outside (b : Box) (fuel : Nat) (p : IntVect)
    (h : p.allLE b.bigEnd = false) : b.cellsFrom fuel p = [] := by
  cases fuel <;> simp [Box.cellsFrom, h]

theorem Box.forLoop_outside {σ : Type} (b : Box) (cond : σ → Bool) (body : IntVect → σ → σ)
    (fuel : Nat) (p : IntVect) (s : σ) (h : p.allLE b.bigEnd = false) :
    b.forLoop cond body fuel p s = some s := by
  cases fuel <;> simp [Box.forLoop, h]

theorem Box.allLE_of_contains (b : Box) (p : IntVect) (h : b.contains p = true) :
    p.allLE b.bigEnd = true := by
  simp only [Box.contains, Bool.and_eq_true] at h
  exact h.2

/-- With enough fuel the cells met from a cell `p` of the box are exactly the
cells of the box at or after `p`, in strictly increasing visiting order. -/
theorem Box.cellsFrom_spec (b : Box) (hmax : b.belowIntMax = true) :
    ∀ (fuel : Nat) (p : IntVect), b.contains p = true →
    b.numPts - b.rank p ≤ fuel →
    (∀ q, q ∈ b.cellsFrom fuel p ↔ (b.contains q = true ∧ (q = p ∨ p.before q))) ∧
    List.Pairwise IntVect.before (b.cellsFrom fuel p) := by
  intro fuel
  induction fuel with
  | zero =>
    intro p hp hf
    have := b.rank_lt_numPts p hp
    omega
  | succ n ih =>
    intro p hp hf
    have hle := b.allLE_of_contains p hp
    have hr := b.rank_lt_numPts p hp
    rcases b.next_spec p hp hmax with ⟨hc, hb, hrk, hnext⟩ | ⟨hout, hlast⟩
    · obtain ⟨ih1, ih3⟩ := ih (b.next p) hc (by omega)
      have tailBefore : ∀ q, q ∈ b.cellsFrom n (b.next p) → p.before q := by
        intro q hq
        rcases (ih1 q).1 hq with ⟨_, rfl | hq2⟩
        · exact hb
        · exact IntVect.before_trans hb hq2
      refine ⟨?_, ?_⟩
      · intro q
        simp only [Box.cellsFrom, hle, if_true, List.mem_cons]
        constructor
        · rintro (rfl | hq)
          · exact ⟨hp, Or.inl rfl⟩
          · exact ⟨((ih1 q).1 hq).1, Or.inr (tailBefore q hq)⟩
        · rintro ⟨hq, rfl | hq2⟩
          · exact Or.inl rfl
          · right
            rcases hnext q hq hq2 with rfl | h3
            · exact (ih1 _).2 ⟨hc, Or.inl rfl⟩
            · exact (ih1 q).2 ⟨hq, Or.inr h3⟩
      · simp only [Box.cellsFrom, hle, if_true, List.pairwise_cons]
        exact ⟨tailBefore, ih3⟩
    · have e := b.cellsFrom_outside n _ hout
      refine ⟨?_, ?_⟩
      · intro q
        simp only [Box.cellsFrom, hle, if_true, e, List.mem_cons, List.not_mem_nil, or_false]
        constructor
        · rintro rfl
          exact ⟨hp, Or.inl rfl⟩
        · rintro ⟨hq, rfl | hq2⟩
          · rfl
          · exact absurd hq2 (hlast q hq)
      · simp [Box.cellsFrom, hle, e]

/-- Fuel beyond the number of cells left changes nothing. -/
theorem Box.cellsFrom_fuel (b : Box) (hmax : b.belowIntMax = true) :
    ∀ (fuel fuel2 : Nat) (p : IntVect), b.contains p = true →
    b.numPts - b.rank p ≤ fuel → b.numPts - b.rank p ≤ fuel2 →
    b.cellsFrom fuel p = b.cellsFrom fuel2 p := by
  intro fuel
  induction fuel with
  | zero =>
    intro fuel2 p hp hf
    have := b.rank_lt_numPts p hp
    omega
  | succ n ih =>
    intro fuel2 p hp hf hf2
    have hle := b.allLE_of_contains p hp
    have hr := b.rank_lt_numPts p hp
    obtain ⟨m, rfl⟩ : ∃ m, fuel2 = m + 1 := ⟨fuel2 - 1, by omega⟩
    simp only [Box.cellsFrom, hle, if_true]
    rcases b.next_spec p hp hmax with ⟨hc, _, hrk, _⟩ | ⟨hout, _⟩
    · rw [ih m (b.next p) hc (by omega) (by omega)]
    · rw [b.cellsFrom_outside n _ hout, b.cellsFrom_outside m _ hout]

/-- With enough fuel the loop ends by its own condition, and its result is
the fold of the body over the cells left to visit. -/
theorem Box.forLoop_eq_scanCells {σ : Type} (b : Box) (hmax : b.belowIntMax = true)
    (cond : σ → Bool) (body : IntVect → σ → σ) :
    ∀ (fuel : Nat) (p : IntVect) (s : σ), b.contains p = true →
    b.numPts - b.rank p ≤ fuel →
    b.forLoop cond body fuel p s = some (scanCells cond body (b.cellsFrom fuel p) s) := by
  intro fuel
  induction fuel with
  | zero =>
    intro p s hp hf
    have := b.rank_lt_numPts p hp
    omega
  | succ n ih =>
    intro p s hp hf
    have hle := b.allLE_of_contains p hp
    have hr := b.rank_lt_numPts p hp
    simp only [Box.forLoop, Box.cellsFrom, hle, if_true, Bool.and_true, scanCells]
    by_cases hc : cond s = true
    · simp only [hc, if_true]
      rcases b.next_spec p hp hmax with ⟨hc2, _, hrk, _⟩ | ⟨hout, _⟩
      · exact ih (b.next p) (body p s) hc2 (by omega)
      · rw [b.forLoop_outside cond body n _ _ hout, b.cellsFrom_outside n _ hout]
        rfl
    · simp [hc]

theorem Box.rank_smallEnd (b : Box) : b.rank b.smallEnd = 0 := by
  simp [Box.rank]

theorem Box.not_contains_of_not_ok (b : Box) (h : b.ok = false) (q : IntVect) :
    b.contains q = false := by
  simp only [Box.ok, IntVect.allLE_eq_false_iff] at h
  rw [← Bool.not_eq_true, Box.contains_iff]
  omega

/-- The visiting list of a box holds exactly the cells of the box. -/
theorem Box.mem_cells (b : Box) (hmax : b.belowIntMax = true) (q : IntVect) :
    q ∈ b.cells ↔ b.contains q = true := by
  unfold Box.cells
  by_cases hok : b.ok = true
  · have hs := b.contains_smallEnd hok
    obtain ⟨h1, _⟩ := b.cellsFrom_spec hmax b.numPts b.smallEnd hs (by omega)
    rw [h1 q]
    constructor
    · exact fun h => h.1
    · intro hq
      refine ⟨hq, ?_⟩
      rw [Box.contains_iff] at hq
      by_cases e : q = b.smallEnd
      · exact Or.inl e
      · right
        have : ¬ (q.x = b.smallEnd.x ∧ q.y = b.smallEnd.y ∧ q.z = b.smallEnd.z) :=
          fun he => e ((IntVect.eq_iff q b.smallEnd).2 he)
        unfold IntVect.before; omega
  · have hok2 : b.ok = false := by simpa using hok
    rw [b.not_contains_of_not_ok hok2 q, b.cellsFrom_outside _ _ hok2]
    simp

/-- No cell occurs twice in the visiting list. -/
theorem Box.nodup_cells (b : Box) (hmax : b.belowIntMax = true) : b.cells.Nodup := by
  unfold Box.cells
  by_cases hok : b.ok = true
  · have hs := b.contains_smallEnd hok
    obtain ⟨_, h2⟩ := b.cellsFrom_spec hmax b.numPts b.smallEnd hs (by omega)
    exact List.Pairwise.imp (fun h e => by subst e; exact IntVect.before_irrefl _ h) h2
  · have hok2 : b.ok = false := by simpa using hok
    rw [b.cellsFrom_outside _ _ hok2]
    exact List.nodup_nil

/-- The loops of the header, started at the small end of the box with at least
`numPts` fuel, fold their body over the cells of the box. -/
theorem Box.forLoop_cells {σ : Type} (b : Box) (hmax : b.belowIntMax = true)
    (cond : σ → Bool) (body : IntVect → σ → σ) (fuel : Nat) (s : σ) (hf : b.numPts ≤ fuel) :
    b.forLoop cond body fuel b.smallEnd s = some (scanCells cond body b.cells s) := by
  by_cases hok : b.ok = true
  · have hs := b.contains_smallEnd hok
    rw [b.forLoop_eq_scanCells hmax cond body fuel b.smallEnd s hs (by omega)]
    unfold Box.cells
    rw [b.cellsFrom_fuel hmax fuel b.numPts b.smallEnd hs (by omega) (by omega)]
  · have hok2 : b.smallEnd.allLE b.bigEnd = false := by simpa [Box.ok] using hok
    unfold Box.cells
    rw [b.forLoop_outside _ _ _ _ _ hok2, b.cellsFrom_outside _ _ hok2]
    rfl

theorem scanCells_cond_false {σ : Type} (cond : σ → Bool) (body : IntVect → σ → σ)
    (cs : List IntVect) (s : σ) (h : cond s = false) : scanCells cond body cs s = s := by
  cases cs <;> simp [scanCells, h]

/-- Whatever the fuel, a loop that ends has folded its body over the cells met. -/
theorem Box.forLoop_some {σ : Type} (b : Box) (cond : σ → Bool) (body : IntVect → σ → σ) :
    ∀ (fuel : Nat) (p : IntVect) (s t : σ), b.forLoop cond body fuel p s = some t →
    t = scanCells cond body (b.cellsFrom fuel p) s := by
  intro fuel
  induction fuel with
  | zero =>
    intro p s t h
    simp only [Box.forLoop] at h
    split at h
    · cases h
    · simp only [Option.some.injEq] at h
      simp [Box.cellsFrom, scanCells, h]
  | succ n ih =>
    intro p s t h
    simp only [Box.forLoop] at h
    split at h
    · rename_i hc
      simp only [Bool.and_eq_true] at hc
      simp only [Box.cellsFrom, hc.2, if_true, scanCells, hc.1]
      exact ih _ _ _ h
    · rename_i hc
      simp only [Option.some.injEq] at h
      subst h
      by_cases h1 : cond s = true
      · have h2 : p.allLE b.bigEnd = false := by
          simpa [h1] using hc
        rw [b.cellsFrom_outside _ _ h2]
        rfl
      · rw [scanCells_cond_false _ _ _ _ (by simpa using h1)]

/-- The visiting list of a non-empty box starts with the small end. -/
theorem Box.cells_eq_cons (b : Box) (hok : b.ok = true) :
    ∃ cs, b.cells = b.smallEnd :: cs := by
  have hs := b.contains_smallEnd hok
  have hr := b.rank_lt_numPts _ hs
  obtain ⟨m, hm⟩ : ∃ m, b.numPts = m + 1 := ⟨b.numPts - 1, by omega⟩
  refine ⟨b.cellsFrom m (b.next b.smallEnd), ?_⟩
  unfold Box.cells
  rw [hm]
  simp [Box.cellsFrom, b.allLE_of_contains _ hs]

/-! ### Other builds of the library -/

theorem forLoopWith_outside {σ : Type} (test : IntVect → Bool) (step : IntVect → IntVect)
    (cond : σ → Bool) (body : IntVect → σ → σ) (fuel : Nat) (p : IntVect) (s : σ)
    (h : test p = false) : forLoopWith test step cond body fuel p s = some s := by
  cases fuel <;> simp [forLoopWith, h]

/-- A test that holds on the cells of the box and a step that agrees with
`Box::next` inside the box, and fails the test when `Box::next` leaves the box,
give the loop of `Box.forLoop`. -/
theorem forLoopWith_eq {σ : Type} (b : Box) (test : IntVect → Bool) (step : IntVect → IntVect)
    (cond : σ → Bool) (body : IntVect → σ → σ)
    (htest : ∀ p, b.contains p = true → test p = true)
    (hstep : ∀ p, b.contains p = true →
      (b.contains (b.next p) = true ∧ step p = b.next p) ∨
      ((b.next p).allLE b.bigEnd = false ∧ test (step p) = false)) :
    ∀ (fuel : Nat) (p : IntVect) (s : σ), b.contains p = true →
    forLoopWith test step cond body fuel p s = b.forLoop cond body fuel p s := by
  intro fuel
  induction fuel with
  | zero =>
    intro p s hp
    simp [forLoopWith, Box.forLoop, htest p hp, b.allLE_of_contains p hp]
  | succ n ih =>
    intro p s hp
    simp only [forLoopWith, Box.forLoop, htest p hp, b.allLE_of_contains p hp]
    split
    · rcases hstep p hp with ⟨h1, h2⟩ | ⟨h1, h2⟩
      · rw [h2]
        exact ih _ _ h1
      · rw [forLoopWith_outside _ _ _ _ _ _ _ h2, b.forLoop_outside _ _ _ _ _ h1]
    · rfl

theorem IntVect.lexLE_iff (p q : IntVect) :
    p.lexLE q = true ↔ ¬ (q.z < p.z ∨ (q.z = p.z ∧ (q.y < p.y ∨ (q.y = p.y ∧ q.x < p.x)))) := by
  simp only [IntVect.lexLE, IntVect.lexLT, Bool.not_eq_true', Bool.or_eq_false_iff,
    Bool.and_eq_false_iff, Bool.not_eq_false', Bool.or_eq_true, Bool.and_eq_true,
    decide_eq_false_iff_not, decide_eq_true_eq]
  omega

theorem IntVect.lexLE_eq_false_iff (p q : IntVect) :
    p.lexLE q = false ↔ (q.z < p.z ∨ (q.z = p.z ∧ (q.y < p.y ∨ (q.y = p.y ∧ q.x < p.x)))) := by
  simp only [IntVect.lexLE, IntVect.lexLT, Bool.not_eq_true', Bool.or_eq_false_iff,
    Bool.and_eq_false_iff, Bool.not_eq_false', Bool.or_eq_true, Bool.and_eq_true,
    decide_eq_false_iff_not, decide_eq_true_eq]

/-- On the cells of a box whose big end is below `INT_MAX` the step by
components is the step of `Box::next`. -/
theorem Box.nextByComponent_eq (b : Box) (p : IntVect) (hp : b.contains p = true)
    (hmax : b.belowIntMax = true) : b.nextByComponent p = b.next p := by
  rw [Box.contains_iff] at hp
  rw [Box.belowIntMax_iff] at hmax
  obtain ⟨⟨h1, h2, h3⟩, h4, h5, h6⟩ := hp
  have bx := b.smallEnd.hx
  have by1 := b.smallEnd.hy
  have wx : wrapInt (p.x + 1) = p.x + 1 := wrapInt_eq _ (by omega) (by omega)
  have wy : wrapInt (p.y + 1) = p.y + 1 := wrapInt_eq _ (by omega) (by omega)
  have hlx : b.smallEnd.x ≤ b.bigEnd.x := by omega
  by_cases hx : p.x + 1 ≤ b.bigEnd.x
  · have hx2 : ¬ (b.bigEnd.x < p.x + 1) := by omega
    simp [Box.next, Box.nextByComponent, IntVect.shiftX, IntVect.allLE, wx, hx, hx2, h5, h6]
  · have hx2 : b.bigEnd.x < p.x + 1 := by omega
    by_cases hy : p.y + 1 ≤ b.bigEnd.y
    · have hy2 : ¬ (b.bigEnd.y < p.y + 1) := by omega
      simp [Box.next, Box.nextByComponent, IntVect.shiftX, IntVect.shiftY, IntVect.setX,
        IntVect.allLE, wx, wy, hx, hx2, hy, hy2, h6, hlx]
    · have hy2 : b.bigEnd.y < p.y + 1 := by omega
      simp [Box.next, Box.nextByComponent, IntVect.shiftX, IntVect.shiftY, IntVect.setX,
        IntVect.allLE, wx, wy, hx, hx2, hy, hy2, hlx]

/-- A step of `Box::next` that leaves the box ends above the big end in the
last index. -/
theorem Box.next_outside (b : Box) (p : IntVect) (hp : b.contains p = true)
    (hmax : b.belowIntMax = true) (hout : (b.next p).allLE b.bigEnd = false) :
    b.bigEnd.z < (b.next p).z ∧ b.bigEnd.x < p.x + 1 ∧ b.bigEnd.y < p.y + 1 := by
  have hc := b.next_cases p hp hmax
  rw [Box.contains_iff] at hp
  rw [IntVect.allLE_eq_false_iff] at hout
  have hlx := b.smallEnd.hx
  rcases hc with ⟨hx, ex, ey, ez⟩ | ⟨hx, hy, ex, ey, ez⟩ | ⟨hx, hy, ex, ey, ez⟩ <;> omega

/-- The loop with the lexicographic test and the step by components is the
loop of `Box.forLoop`. -/
theorem Box.forLoop_eq_lex {σ : Type} (b : Box) (cond : σ → Bool) (body : IntVect → σ → σ)
    (fuel : Nat) (s : σ) (hok : b.ok = true) (hmax : b.belowIntMax = true) :
    forLoopWith (fun p => p.lexLE b.bigEnd) b.nextByComponent cond body fuel b.smallEnd s =
      b.forLoop cond body fuel b.smallEnd s := by
  apply forLoopWith_eq b _ _ cond body _ _ fuel b.smallEnd s (b.contains_smallEnd hok)
  · intro p hp
    rw [Box.contains_iff] at hp
    rw [IntVect.lexLE_iff]
    omega
  · intro p hp
    rw [b.nextByComponent_eq p hp hmax]
    rcases b.next_spec p hp hmax with ⟨h1, _⟩ | ⟨h1, _⟩
    · exact Or.inl ⟨h1, rfl⟩
    · right
      refine ⟨h1, ?_⟩
      have := b.next_outside p hp hmax h1
      rw [IntVect.lexLE_eq_false_iff]
      omega

/-- On the cells of a box of a two-dimensional build the two-dimensional steps
agree with `Box::next` as long as it stays in the box, and leave the box with
it. -/
theorem Box.next2_cases (b : Box) (p : IntVect) (hp : b.contains p = true)
    (hmax : b.belowIntMax = true) (hflat : b.flat = true) :
    (b.contains (b.next p) = true ∧ b.next2 p = b.next p ∧ b.next2ByComponent p = b.next p) ∨
    ((b.next p).allLE b.bigEnd = false ∧ b.bigEnd.y < (b.next2 p).y ∧
      b.bigEnd.y < (b.next2ByComponent p).y ∧ (b.next2 p).z = b.bigEnd.z ∧
      (b.next2ByComponent p).z = b.bigEnd.z) := by
  simp only [Box.flat, Bool.and_eq_true, decide_eq_true_eq] at hflat
  have hspec := b.next_spec p hp hmax
  have hcase := b.next_cases p hp hmax
  rw [Box.contains_iff] at hp
  rw [Box.belowIntMax_iff] at hmax
  obtain ⟨⟨h1, h2, h3⟩, h4, h5, h6⟩ := hp
  have bx := b.smallEnd.hx
  have by1 := b.smallEnd.hy
  have wx : wrapInt (p.x + 1) = p.x + 1 := wrapInt_eq _ (by omega) (by omega)
  have wy : wrapInt (p.y + 1) = p.y + 1 := wrapInt_eq _ (by omega) (by omega)
  have hlx : b.smallEnd.x ≤ b.bigEnd.x := by omega
  by_cases hx : p.x + 1 ≤ b.bigEnd.x
  · have hx2 : ¬ (b.bigEnd.x < p.x + 1) := by omega
    left
    refine ⟨?_, ?_, ?_⟩
    · rcases hspec with ⟨hc, _⟩ | ⟨hout, _⟩
      · exact hc
      · have := b.next_outside p (by rw [Box.contains_iff]; omega)
          (by rw [Box.belowIntMax_iff]; omega) hout
        omega
    · simp [Box.next, Box.next2, IntVect.shiftX, IntVect.allLE, wx, hx, h5, h6]
    · simp [Box.next, Box.next2ByComponent, IntVect.shiftX, IntVect.allLE, wx, hx, hx2, h5, h6]
  · have hx2 : b.bigEnd.x < p.x + 1 := by omega
    by_cases hy : p.y + 1 ≤ b.bigEnd.y
    · left
      refine ⟨?_, ?_, ?_⟩
      · rcases hspec with ⟨hc, _⟩ | ⟨hout, _⟩
        · exact hc
        · have := b.next_outside p (by rw [Box.contains_iff]; omega)
            (by rw [Box.belowIntMax_iff]; omega) hout
          omega
      · simp [Box.next, Box.next2, IntVect.shiftX, IntVect.shiftY, IntVect.setX, IntVect.allLE,
          wx, wy, hx, hx2, hy, h6, hlx]
      · simp [Box.next, Box.next2ByComponent, IntVect.shiftX, IntVect.shiftY, IntVect.setX,
          IntVect.allLE, wx, wy, hx, hx2, hy, h6, hlx]
    · right
      refine ⟨?_, ?_, ?_, ?_, ?_⟩
      · rw [IntVect.allLE_eq_false_iff]
        rcases hcase with ⟨_, ex, ey, ez⟩ | ⟨_, _, ex, ey, ez⟩ | ⟨_, _, ex, ey, ez⟩ <;> omega
      · simp [Box.next2, IntVect.shiftX, IntVect.shiftY, IntVect.setX, IntVect.allLE,
          wx, wy, hx, hx2]
        omega
      · simp [Box.next2ByComponent, IntVect.shiftX, IntVect.shiftY, IntVect.setX, wx, wy, hx2]
        omega
      · simp [Box.next2, IntVect.shiftX, IntVect.shiftY, IntVect.setX, IntVect.allLE,
          wx, wy, hx, hx2]
        omega
      · simp [Box.next2ByComponent, IntVect.shiftX, IntVect.shiftY, IntVect.setX, wx, wy, hx2]
        omega

/-- On a box of a two-dimensional build the loop with the two-dimensional
`Box::next` is the loop of `Box.forLoop`. -/
theorem Box.forLoop_eq_flat {σ : Type} (b : Box) (cond : σ → Bool) (body : IntVect → σ → σ)
    (fuel : Nat) (s : σ) (hok : b.ok = true) (hmax : b.belowIntMax = true)
    (hflat : b.flat = true) :
    forLoopWith (fun p => p.allLE b.bigEnd) b.next2 cond body fuel b.smallEnd s =
      b.forLoop cond body fuel b.smallEnd s := by
  apply forLoopWith_eq b _ _ cond body _ _ fuel b.smallEnd s (b.contains_smallEnd hok)
  · intro p hp
    exact b.allLE_of_contains p hp
  · intro p hp
    rcases b.next2_cases p hp hmax hflat with ⟨h1, h2, _⟩ | ⟨h1, h2, _⟩
    · exact Or.inl ⟨h1, h2⟩
    · right
      refine ⟨h1, ?_⟩
      rw [IntVect.allLE_eq_false_iff]
      omega

/-- On a box of a two-dimensional build the loop with the lexicographic test
and the two-dimensional step by components is the loop of `Box.forLoop`. -/
theorem Box.forLoop_eq_flat_lex {σ : Type} (b : Box) (cond : σ → Bool)
    (body : IntVect → σ → σ) (fuel : Nat) (s : σ) (hok : b.ok = true)
    (hmax : b.belowIntMax = true) (hflat : b.flat = true) :
    forLoopWith (fun p => p.lexLE b.bigEnd) b.next2ByComponent cond body fuel b.smallEnd s =
      b.forLoop cond body fuel b.smallEnd s := by
  apply forLoopWith_eq b _ _ cond body _ _ fuel b.smallEnd s (b.contains_smallEnd hok)
  · intro p hp
    rw [Box.contains_iff] at hp
    rw [IntVect.lexLE_iff]
    omega
  · intro p hp
    rcases b.next2_cases p hp hmax hflat with ⟨h1, _, h3⟩ | ⟨h1, _, h3, _, h5⟩
    · exact Or.inl ⟨h1, h3⟩
    · right
      refine ⟨h1, ?_⟩
      rw [IntVect.lexLE_eq_false_iff]
      omega

/-! ## Lemmas on the classification and the order -/

theorem BadFPClass_eq_false_iff (x : Real) :
    BadFPClass x = false ↔ x.expo ≠ 2047 ∧ (x.expo = 0 → x.frac = 0) := by
  unfold BadFPClass FP_CLASS fp_class BadFPClass.switch
  by_cases h1 : x.expo = 2047
  · by_cases h2 : x.frac = 0 <;> by_cases h3 : 2251799813685248 ≤ x.frac <;>
      cases hs : x.sign <;> simp [h1, h2, h3, FP_SNAN, FP_QNAN, FP_POS_INF, FP_NEG_INF,
        FP_POS_NORM, FP_NEG_NORM, FP_POS_DENORM, FP_NEG_DENORM, FP_POS_ZERO, FP_NEG_ZERO]
  · by_cases h2 : x.expo = 0 <;> by_cases h3 : x.frac = 0 <;>
      cases hs : x.sign <;> simp [h1, h2, h3, FP_SNAN, FP_QNAN, FP_POS_INF, FP_NEG_INF,
        FP_POS_NORM, FP_NEG_NORM, FP_POS_DENORM, FP_NEG_DENORM, FP_POS_ZERO, FP_NEG_ZERO]

theorem Real.isNaN_eq_false_of_good (x : Real) (h : BadFPClass x = false) : x.isNaN = false := by
  rw [BadFPClass_eq_false_iff] at h
  simp [Real.isNaN, h.1]

/-- The exact values are ordered like the values in units of `2^-1074`. -/
theorem Real.toRat_le (a b : Real) (h : a.scaled ≤ b.scaled) : a.toRat ≤ b.toRat := by
  unfold Real.toRat
  have h2 : (a.scaled : ℚ) ≤ (b.scaled : ℚ) := by exact_mod_cast h
  exact div_le_div_of_nonneg_right h2 (by positivity)

theorem Max_eq_or (a b : Real) : Max a b = a ∨ Max a b = b := by
  unfold Max; split <;> simp

theorem Min_eq_or (a b : Real) : Min a b = a ∨ Min a b = b := by
  unfold Min; split <;> simp

theorem Max_ge (a b : Real) (ha : a.isNaN = false) (hb : b.isNaN = false) :
    a.scaled ≤ (Max a b).scaled ∧ b.scaled ≤ (Max a b).scaled := by
  unfold Max Real.gt Real.lt
  simp only [ha, hb, Bool.not_false, Bool.true_and]
  by_cases h : b.scaled < a.scaled
  · simp only [h, decide_True, if_true]; omega
  · simp only [h, decide_False]; simp only [Bool.false_eq_true, if_false]; omega

theorem Min_le (a b : Real) (ha : a.isNaN = false) (hb : b.isNaN = false) :
    (Min a b).scaled ≤ a.scaled ∧ (Min a b).scaled ≤ b.scaled := by
  unfold Min Real.lt
  simp only [ha, hb, Bool.not_false, Bool.true_and]
  by_cases h : a.scaled < b.scaled
  · simp only [h, decide_True, if_true]; omega
  · simp only [h, decide_False]; simp only [Bool.false_eq_true, if_false]; omega

/-! ## Lemmas on the scan -/

theorem scanCells_stopped (pick : Real → Real → Real) (fab : FArrayBox) (nComp : Int)
    (cs : List IntVect) (s : ScanState) (h : s.badVal = true) :
    scanCells scanCond (scanBody pick fab nComp) cs s = s := by
  cases cs <;> simp [scanCells, scanCond, h]

theorem scanBody_bad (pick : Real → Real → Real) (fab : FArrayBox) (nComp : Int)
    (p : IntVect) (s : ScanState) (h : fab.badAt nComp p = true) :
    scanBody pick fab nComp p s =
      { s with dataString := "*** Bad Float Value ***", badVal := true,
               reads := s.reads ++ [(p, nComp)] } := by
  unfold FArrayBox.badAt at h
  simp [scanBody, h]

theorem scanBody_good (pick : Real → Real → Real) (fab : FArrayBox) (nComp : Int)
    (p : IntVect) (s : ScanState) (h : fab.badAt nComp p = false) :
    scanBody pick fab nComp p s =
      { s with dataM := pick (fab.data p nComp) s.dataM, reads := s.reads ++ [(p, nComp)] } := by
  unfold FArrayBox.badAt at h
  simp [scanBody, h]

/-- The reads of the loop: the cells up to and including the first bad one. -/
theorem scanCells_reads (pick : Real → Real → Real) (fab : FArrayBox) (nComp : Int) :
    ∀ (cs : List IntVect) (s : ScanState), s.badVal = false →
    (scanCells scanCond (scanBody pick fab nComp) cs s).reads =
      s.reads ++ (takeThrough (fab.badAt nComp) cs).map (fun p => (p, nComp)) := by
  intro cs
  induction cs with
  | nil => intro s _; simp [scanCells, takeThrough]
  | cons c cs ih =>
    intro s hs
    simp only [scanCells, scanCond, hs, Bool.not_false, if_true, takeThrough]
    by_cases hb : fab.badAt nComp c = true
    · rw [scanBody_bad pick fab nComp c s hb, scanCells_stopped _ _ _ _ _ rfl]
      simp [hb]
    · have hb2 : fab.badAt nComp c = false := by simpa using hb
      rw [scanBody_good pick fab nComp c s hb2, ih _ (by exact hs)]
      simp [hb2]

/-- A bad cell among the cells to visit ends the loop with `badVal` set. -/
theorem scanCells_bad (pick : Real → Real → Real) (fab : FArrayBox) (nComp : Int) :
    ∀ (cs : List IntVect) (s : ScanState), s.badVal = false →
    (∃ p, p ∈ cs ∧ fab.badAt nComp p = true) →
    (scanCells scanCond (scanBody pick fab nComp) cs s).badVal = true ∧
    (scanCells scanCond (scanBody pick fab nComp) cs s).dataString =
      "*** Bad Float Value ***" := by
  intro cs
  induction cs with
  | nil => intro s _ ⟨p, hp, _⟩; simp at hp
  | cons c cs ih =>
    intro s hs ⟨p, hp, hbad⟩
    simp only [scanCells, scanCond, hs, Bool.not_false, if_true]
    by_cases hb : fab.badAt nComp c = true
    · rw [scanBody_bad pick fab nComp c s hb, scanCells_stopped _ _ _ _ _ rfl]
      exact ⟨rfl, rfl⟩
    · have hb2 : fab.badAt nComp c = false := by simpa using hb
      rw [scanBody_good pick fab nComp c s hb2]
      refine ih _ (by exact hs) ?_
      rcases List.mem_cons.1 hp with rfl | hp2
      · exact absurd hbad hb
      · exact ⟨p, hp2, hbad⟩

/-- Without a bad cell the loop runs to the end and folds `pick` over the values. -/
theorem scanCells_good (pick : Real → Real → Real) (fab : FArrayBox) (nComp : Int) :
    ∀ (cs : List IntVect) (s : ScanState), s.badVal = false →
    (∀ p, p ∈ cs → fab.badAt nComp p = false) →
    (scanCells scanCond (scanBody pick fab nComp) cs s).badVal = false ∧
    (scanCells scanCond (scanBody pick fab nComp) cs s).dataM =
      cs.foldl (fun m p => pick (fab.data p nComp) m) s.dataM := by
  intro cs
  induction cs with
  | nil => intro s hs _; simp [scanCells, hs]
  | cons c cs ih =>
    intro s hs hall
    simp only [scanCells, scanCond, hs, Bool.not_false, if_true, List.foldl_cons]
    rw [scanBody_good pick fab nComp c s (hall c (List.mem_cons_self _ _))]
    exact ih _ hs (fun p hp => hall p (List.mem_cons_of_mem _ hp))

/-- The loop looks at the array only on the cells up to the first bad one. -/
theorem scanCells_congr (pick : Real → Real → Real) (fab fab2 : FArrayBox) (nComp : Int) :
    ∀ (cs : List IntVect) (s : ScanState),
    (∀ p, p ∈ takeThrough (fab.badAt nComp) cs → fab2.data p nComp = fab.data p nComp) →
    scanCells scanCond (scanBody pick fab2 nComp) cs s =
      scanCells scanCond (scanBody pick fab nComp) cs s := by
  intro cs
  induction cs with
  | nil => intro s _; simp [scanCells]
  | cons c cs ih =>
    intro s hag
    by_cases hs : s.badVal = true
    · rw [scanCells_stopped _ _ _ _ _ hs, scanCells_stopped _ _ _ _ _ hs]
    · have hs2 : s.badVal = false := by simpa using hs
      simp only [scanCells, scanCond, hs2, Bool.not_false, if_true]
      have hc : fab2.data c nComp = fab.data c nComp := by
        apply hag
        simp only [takeThrough]
        split <;> simp
      have hbody : scanBody pick fab2 nComp c s = scanBody pick fab nComp c s := by
        simp [scanBody, hc]
      rw [hbody]
      by_cases hb : fab.badAt nComp c = true
      · rw [scanBody_bad pick fab nComp c s hb, scanCells_stopped _ _ _ _ _ rfl,
          scanCells_stopped _ _ _ _ _ rfl]
      · apply ih
        intro p hp
        apply hag
        have hb2 : fab.badAt nComp c = false := by simpa using hb
        simp [takeThrough, hb2, hp]

/-- With enough fuel `FPMax` is the fold `scanRun Max` followed by the code
after the loop. -/
theorem FPMax_eq (fuel : Nat) (fab : FArrayBox) (inBox : Box) (nComp : Int)
    (hok : (inBox.inter fab.box).ok = true) (hmax : (inBox.inter fab.box).belowIntMax = true)
    (hf : (inBox.inter fab.box).numPts ≤ fuel) :
    FPMax fuel fab inBox nComp =
      some (scanFinish "Max: " "FPMax: buffer too small"
          (scanRun Max fab (inBox.inter fab.box) nComp),
        (scanRun Max fab (inBox.inter fab.box) nComp).reads) := by
  unfold FPMax scanRun
  simp only [hok, Bool.not_true, Bool.false_eq_true, if_false]
  rw [Box.forLoop_cells _ hmax _ _ _ _ hf]

/-- With enough fuel `FPMin` is the fold `scanRun Min` followed by the code
after the loop. -/
theorem FPMin_eq (fuel : Nat) (fab : FArrayBox) (inBox : Box) (nComp : Int)
    (hok : (inBox.inter fab.box).ok = true) (hmax : (inBox.inter fab.box).belowIntMax = true)
    (hf : (inBox.inter fab.box).numPts ≤ fuel) :
    FPMin fuel fab inBox nComp =
      some (scanFinish "Min: " "FPMin: buffer too small"
          (scanRun Min fab (inBox.inter fab.box) nComp),
        (scanRun Min fab (inBox.inter fab.box) nComp).reads) := by
  unfold FPMin scanRun
  simp only [hok, Bool.not_true, Bool.false_eq_true, if_false]
  rw [Box.forLoop_cells _ hmax _ _ _ _ hf]

theorem decExpFrom_bounds (m : Nat) : ∀ (n : Nat) (e : Int),
    e ≤ decExpFrom m n e ∧ decExpFrom m n e ≤ e + n := by
  intro n
  induction n with
  | zero => intro e; simp [decExpFrom]
  | succ n ih =>
    intro e
    simp only [decExpFrom]
    split
    · omega
    · have := ih (e + 1)
      push_cast
      omega

theorem sciParts_exp_bounds (m : Nat) : -324 ≤ (sciParts m).2 ∧ (sciParts m).2 ≤ 317 := by
  unfold sciParts
  have h := decExpFrom_bounds m 640 (-324)
  split
  · simp
  · dsimp only
    split <;> (unfold decExp; dsimp only; omega)

theorem expDigits_length (a : Nat) (h : a < 1000) : (expDigits a).length ≤ 3 := by
  unfold expDigits
  split
  · simp
  · unfold Nat.toDigits
    exact Nat.toDigitsCore_length 10 (by decide) (a + 1) a 3 (by omega) (by decide)

theorem sciChars_length (neg : Bool) (d : Nat) (e : Int) :
    (sciChars neg d e).length = (if neg then 1 else 0) + 8 + (expDigits e.natAbs).length := by
  unfold sciChars
  cases neg <;> simp <;> omega

theorem padLeft_length (w : Nat) (cs : List Char) :
    (padLeft w cs).length = if w ≤ cs.length then cs.length else w := by
  unfold padLeft
  simp only [List.length_append, List.length_replicate]
  split <;> omega

/-- The conversion of a finite number has at most twelve characters. -/
theorem formatE_length_le (x : Real) (h : x.expo ≠ 2047) : (formatE x).length ≤ 12 := by
  unfold formatE
  simp only [h, if_false, String.length, padLeft_length, sciChars_length]
  have hb := sciParts_exp_bounds x.mag
  have he := expDigits_length (sciParts x.mag).2.natAbs (by omega)
  cases x.sign <;> simp only [Bool.false_eq_true, if_false, if_true] <;> split <;> omega

/-- The search for the decimal exponent, started at or below it and with
enough steps to pass it, stops at it. -/
theorem decExpFrom_spec (m : Nat) : ∀ (n : Nat) (e : Int), magLtPow10 m e = false →
    magLtPow10 m (e + n + 1) = true →
    magLtPow10 m (decExpFrom m n e) = false ∧ magLtPow10 m (decExpFrom m n e + 1) = true := by
  intro n
  induction n with
  | zero =>
    intro e h1 h2
    simp only [decExpFrom]
    simp only [Nat.cast_zero, add_zero] at h2
    exact ⟨h1, h2⟩
  | succ n ih =>
    intro e h1 h2
    simp only [decExpFrom]
    by_cases h : magLtPow10 m (e + 1) = true
    · rw [if_pos h]
      exact ⟨h1, h⟩
    · rw [if_neg h]
      apply ih (e + 1) (by simpa using h)
      have : e + 1 + (n : Int) + 1 = e + ((n + 1 : Nat) : Int) + 1 := by push_cast; ring
      rw [this]
      exact h2

theorem Real.mag_lt (x : Real) (h : x.expo ≠ 2047) : x.mag < 2 ^ 2098 := by
  unfold Real.mag
  have h1 := x.expo_lt
  have h2 := x.frac_lt
  split
  · calc x.frac < 4503599627370496 := h2
      _ ≤ 2 ^ 2098 := by decide
  · have h3 : 2 ^ (x.expo - 1) ≤ 2 ^ 2045 := Nat.pow_le_pow_right (by decide) (by omega)
    calc (4503599627370496 + x.frac) * 2 ^ (x.expo - 1)
        ≤ (4503599627370496 + x.frac) * 2 ^ 2045 := Nat.mul_le_mul_left _ h3
      _ < 9007199254740992 * 2 ^ 2045 := Nat.mul_lt_mul_of_pos_right (by omega) (by positivity)
      _ = 2 ^ 2098 := by decide

/-- The magnitude of a normal number is at least `2^-1022`. -/
theorem Real.mag_ge_of_normal (x : Real) (h : x.expo ≠ 0) : 2 ^ 52 ≤ x.mag := by
  unfold Real.mag
  simp only [h, if_false]
  have h3 : 1 ≤ 2 ^ (x.expo - 1) := Nat.one_le_two_pow
  calc 2 ^ 52 = 4503599627370496 * 1 := by decide
    _ ≤ (4503599627370496 + x.frac) * 2 ^ (x.expo - 1) :=
      Nat.mul_le_mul (by omega) h3

theorem magLtPow10_low (m : Nat) (hm : 0 < m) (j : Int) (hj : j ≤ -324) :
    magLtPow10 m j = false := by
  unfold magLtPow10
  have hj2 : ¬ (0 ≤ j) := by omega
  simp only [hj2, if_false, decide_eq_false_iff_not, not_lt]
  have h1 : 10 ^ 324 ≤ 10 ^ (-j).toNat := Nat.pow_le_pow_right (by decide) (by omega)
  calc 2 ^ 1074 ≤ 1 * 10 ^ 324 := by decide
    _ ≤ m * 10 ^ (-j).toNat := Nat.mul_le_mul hm h1

theorem magLtPow10_low_normal (m : Nat) (hm : 2 ^ 52 ≤ m) (j : Int) (hj : j ≤ -308) :
    magLtPow10 m j = false := by
  unfold magLtPow10
  have hj2 : ¬ (0 ≤ j) := by omega
  simp only [hj2, if_false, decide_eq_false_iff_not, not_lt]
  have h1 : 10 ^ 308 ≤ 10 ^ (-j).toNat := Nat.pow_le_pow_right (by decide) (by omega)
  calc 2 ^ 1074 ≤ 2 ^ 52 * 10 ^ 308 := by decide
    _ ≤ m * 10 ^ (-j).toNat := Nat.mul_le_mul hm h1

theorem magLtPow10_high (m : Nat) (hm : m < 2 ^ 2098) (j : Int) (hj : 309 ≤ j) :
    magLtPow10 m j = true := by
  unfold magLtPow10
  have hj2 : 0 ≤ j := by omega
  simp only [hj2, if_true, decide_eq_true_eq]
  have h1 : 10 ^ 309 ≤ 10 ^ j.toNat := Nat.pow_le_pow_right (by decide) (by omega)
  calc m < 2 ^ 2098 := hm
    _ ≤ 2 ^ 1074 * 10 ^ 309 := by decide
    _ ≤ 2 ^ 1074 * 10 ^ j.toNat := Nat.mul_le_mul_left _ h1

/-- The search of `decExp` finds the decimal exponent of every non-zero finite
magnitude: `10^e ≤ m / 2^1074 < 10^(e+1)`. -/
theorem decExp_spec (m : Nat) (h0 : 0 < m) (h1 : m < 2 ^ 2098) :
    magLtPow10 m (decExp m) = false ∧ magLtPow10 m (decExp m + 1) = true := by
  unfold decExp
  exact decExpFrom_spec m 640 (-324) (magLtPow10_low m h0 _ (by omega))
    (magLtPow10_high m h1 _ (by norm_num))

/-- The decimal exponent of a finite magnitude is at most 308, and that of a
normal magnitude is at least -308. -/
theorem decExp_bounds (m : Nat) (h0 : 0 < m) (h1 : m < 2 ^ 2098) :
    decExp m ≤ 308 ∧ (2 ^ 52 ≤ m → -308 ≤ decExp m) := by
  obtain ⟨ha, hb⟩ := decExp_spec m h0 h1
  constructor
  · by_contra hc
    rw [magLtPow10_high m h1 (decExp m) (by omega)] at ha
    cases ha
  · intro hn
    by_contra hc
    rw [magLtPow10_low_normal m hn (decExp m + 1) (by omega)] at hb
    cases hb

/-- Rounding a magnitude below `2^1024` at exponent 308 does not carry. -/
theorem sigDigits_top (m : Nat) (h1 : m < 2 ^ 2098) : sigDigits m 308 < 100000 := by
  unfold sigDigits
  have h308 : ¬ ((308 : Int) ≤ 4) := by omega
  simp only [h308, if_false]
  have hq : m / (2 ^ 1074 * 10 ^ ((308 : Int) - 4).toNat) ≤ 17976 := by
    have e : ((308 : Int) - 4).toNat = 304 := by decide
    rw [e]
    calc m / (2 ^ 1074 * 10 ^ 304) ≤ 2 ^ 2098 / (2 ^ 1074 * 10 ^ 304) :=
        Nat.div_le_div_right (Nat.le_of_lt h1)
      _ = 17976 := by decide
  split <;> omega

/-- The exponent printed for a value that is not bad is between -308 and 308. -/
theorem sciParts_exp_range (x : Real) (h : BadFPClass x = false) :
    -308 ≤ (sciParts x.mag).2 ∧ (sciParts x.mag).2 ≤ 308 := by
  rw [BadFPClass_eq_false_iff] at h
  have hm := x.mag_lt h.1
  unfold sciParts
  by_cases h0 : x.mag = 0
  · simp [h0]
  · simp only [h0, if_false]
    have hnorm : 2 ^ 52 ≤ x.mag := by
      apply x.mag_ge_of_normal
      intro he
      apply h0
      simp [Real.mag, he, h.2 he]
    obtain ⟨hu, hl⟩ := decExp_bounds x.mag (by omega) hm
    have hl2 := hl hnorm
    split
    · rename_i hcarry
      dsimp only
      have : decExp x.mag ≠ 308 := by
        intro e
        rw [e] at hcarry
        have := sigDigits_top x.mag hm
        omega
      omega
    · dsimp only
      omega

theorem div_range (num den : Nat) (hden : 0 < den) (hl : 10000 * den ≤ num)
    (hu : num < 100000 * den) : 10000 ≤ num / den ∧ num / den < 100000 :=
  ⟨(Nat.le_div_iff_mul_le hden).2 hl, (Nat.div_lt_iff_lt_mul hden).2 hu⟩

/-- At the decimal exponent of a magnitude the rounded quotient has five
digits, or is `100000` after a carry. -/
theorem sigDigits_range (m : Nat) (e : Int) (h1 : magLtPow10 m e = false)
    (h2 : magLtPow10 m (e + 1) = true) :
    10000 ≤ sigDigits m e ∧ sigDigits m e ≤ 100000 := by
  have key : ∀ num den : Nat, 0 < den → 10000 * den ≤ num → num < 100000 * den →
      10000 ≤ (if den < 2 * (num % den) ∨ (2 * (num % den) = den ∧ num / den % 2 = 1)
        then num / den + 1 else num / den) ∧
      (if den < 2 * (num % den) ∨ (2 * (num % den) = den ∧ num / den % 2 = 1)
        then num / den + 1 else num / den) ≤ 100000 := by
    intro num den hden hl hu
    obtain ⟨a, b⟩ := div_range num den hden hl hu
    split <;> omega
  have hpos : 0 < 2 ^ 1074 := by positivity
  unfold sigDigits
  unfold magLtPow10 at h1 h2
  by_cases hneg : e < 0
  · -- the number is below 1
    obtain ⟨a, ha⟩ : ∃ a : Nat, e = -((a : Int) + 1) := ⟨(-e - 1).toNat, by omega⟩
    subst ha
    have e1 : ¬ (0 ≤ -((a : Int) + 1)) := by omega
    have e2 : (-(-((a : Int) + 1))).toNat = a + 1 := by omega
    have e3 : (-((a : Int) + 1)) ≤ 4 := by omega
    have e4 : (4 - (-((a : Int) + 1))).toNat = a + 5 := by omega
    simp only [e1, if_false, e2, decide_eq_false_iff_not, not_lt] at h1
    simp only [e3, if_true, e4]
    apply key _ _ hpos
    · calc 10000 * 2 ^ 1074 ≤ 10000 * (m * 10 ^ (a + 1)) := Nat.mul_le_mul_left _ h1
        _ = m * 10 ^ (a + 5) := by ring
    · by_cases ha0 : a = 0
      · subst ha0
        simp only [Nat.cast_zero, zero_add, neg_add_cancel, le_refl, if_true,
          Int.toNat_zero, pow_zero, mul_one, decide_eq_true_eq] at h2
        calc m * 10 ^ (0 + 5) = 100000 * m := by ring
          _ < 100000 * 2 ^ 1074 := Nat.mul_lt_mul_of_pos_left h2 (by decide)
      · have e5 : ¬ (0 ≤ -((a : Int) + 1) + 1) := by omega
        have e6 : (-(-((a : Int) + 1) + 1)).toNat = a := by omega
        simp only [e5, if_false, e6, decide_eq_true_eq] at h2
        calc m * 10 ^ (a + 5) = 100000 * (m * 10 ^ a) := by ring
          _ < 100000 * 2 ^ 1074 := Nat.mul_lt_mul_of_pos_left h2 (by decide)
  · obtain ⟨a, ha⟩ : ∃ a : Nat, e = (a : Int) := ⟨e.toNat, by omega⟩
    subst ha
    have e1 : (0 : Int) ≤ (a : Int) := by omega
    have e2 : (0 : Int) ≤ (a : Int) + 1 := by omega
    have e3 : ((a : Int) + 1).toNat = a + 1 := by omega
    simp only [e1, if_true, Int.toNat_ofNat, decide_eq_false_iff_not, not_lt] at h1
    simp only [e2, if_true, e3, decide_eq_true_eq] at h2
    by_cases h4 : a ≤ 4
    · have e4 : (a : Int) ≤ 4 := by omega
      obtain ⟨c, hc⟩ : ∃ c : Nat, a + c = 4 := ⟨4 - a, by omega⟩
      have e5 : (4 - (a : Int)).toNat = c := by omega
      simp only [e4, if_true, e5]
      have hpow : 10 ^ a * 10 ^ c = 10000 := by rw [← pow_add, hc]; norm_num
      apply key _ _ hpos
      · calc 10000 * 2 ^ 1074 = 2 ^ 1074 * 10 ^ a * 10 ^ c := by rw [← hpow]; ring
          _ ≤ m * 10 ^ c := Nat.mul_le_mul_right _ h1
      · calc m * 10 ^ c < 2 ^ 1074 * 10 ^ (a + 1) * 10 ^ c :=
            Nat.mul_lt_mul_of_pos_right h2 (by positivity)
          _ = 100000 * 2 ^ 1074 := by
            have : 10 ^ (a + 1) * 10 ^ c = 10 * (10 ^ a * 10 ^ c) := by ring
            rw [Nat.mul_assoc, this, hpow]; ring
    · have e4 : ¬ ((a : Int) ≤ 4) := by omega
      obtain ⟨c, hc⟩ : ∃ c : Nat, a = c + 4 := ⟨a - 4, by omega⟩
      subst hc
      have e5 : (((c + 4 : Nat) : Int) - 4).toNat = c := by omega
      simp only [e4, if_false, e5]
      apply key _ _ (by positivity)
      · calc 10000 * (2 ^ 1074 * 10 ^ c) = 2 ^ 1074 * 10 ^ (c + 4) := by ring
          _ ≤ m := h1
      · calc m < 2 ^ 1074 * 10 ^ (c + 4 + 1) := h2
          _ = 100000 * (2 ^ 1074 * 10 ^ c) := by ring

/-- The conversion of a non-zero finite magnitude has a leading digit that is
not zero: its five digits form a number between 10000 and 99999. -/
theorem sciParts_digits_range (m : Nat) (h0 : 0 < m) (h1 : m < 2 ^ 2098) :
    10000 ≤ (sciParts m).1 ∧ (sciParts m).1 ≤ 99999 := by
  obtain ⟨ha, hb⟩ := decExp_spec m h0 h1
  obtain ⟨hc, hd⟩ := sigDigits_range m (decExp m) ha hb
  unfold sciParts
  have hm : m ≠ 0 := by omega
  simp only [hm, if_false]
  split <;> (dsimp only; omega)

/-- When the complete output fits the buffer, `snprintf` leaves all of it there. -/
theorem snprintf_fits (size : Nat) (x : Real) (h : (formatE x).length < size) :
    (snprintf size x).1 = formatE x := by
  unfold snprintf
  dsimp only
  rw [List.take_of_length_le]
  simp only [String.length] at h
  omega

/-- The code after the loop, when no bad value was met. -/
theorem scanFinish_good (label msg : String) (s : ScanState) (h : s.badVal = false) :
    scanFinish label msg s =
      if (formatE s.dataM).length < MAXSTRINGWIDTH then Outcome.returned (label ++ formatE s.dataM)
      else Outcome.aborted msg := by
  unfold scanFinish
  simp only [h, Bool.not_false, if_true]
  by_cases hl : (formatE s.dataM).length < MAXSTRINGWIDTH
  · have h2 : ¬ MAXSTRINGWIDTH ≤ (snprintf MAXSTRINGWIDTH s.dataM).2 := by
      simp only [snprintf]; omega
    simp only [h2, if_false, hl, if_true, snprintf_fits _ _ hl]
  · have h2 : MAXSTRINGWIDTH ≤ (snprintf MAXSTRINGWIDTH s.dataM).2 := by
      simp only [snprintf]; omega
    simp only [h2, if_true, hl, if_false]

/-- The code after the loop, when a bad value was met. -/
theorem scanFinish_bad (label msg : String) (s : ScanState) (h : s.badVal = true) :
    scanFinish label msg s = Outcome.returned (label ++ s.dataString) := by
  unfold scanFinish
  simp [h]

/-- Folding `pick` (`Max` or `Min`) over values that are not bad yields one of
the values, and a bound of all of them in the order `ord`. -/
theorem foldl_pick_spec (pick : Real → Real → Real) (ord : Int → Int → Prop)
    (hrefl : ∀ a, ord a a) (htrans : ∀ a b c, ord a b → ord b c → ord a c)
    (hor : ∀ a b, pick a b = a ∨ pick a b = b)
    (hbound : ∀ a b, a.isNaN = false → b.isNaN = false →
      ord a.scaled (pick a b).scaled ∧ ord b.scaled (pick a b).scaled)
    (f : IntVect → Real) : ∀ (cs : List IntVect) (init : Real), init.isNaN = false →
    (∀ p, p ∈ cs → (f p).isNaN = false) →
    (cs.foldl (fun m p => pick (f p) m) init = init ∨
      ∃ p, p ∈ cs ∧ cs.foldl (fun m p => pick (f p) m) init = f p) ∧
    ord init.scaled (cs.foldl (fun m p => pick (f p) m) init).scaled ∧
    ∀ p, p ∈ cs → ord (f p).scaled (cs.foldl (fun m p => pick (f p) m) init).scaled := by
  intro cs
  induction cs with
  | nil => intro init _ _; simp [hrefl]
  | cons c cs ih =>
    intro init hinit hall
    simp only [List.foldl_cons]
    have hc := hall c (List.mem_cons_self _ _)
    have hb := hbound (f c) init hc hinit
    have hnan : (pick (f c) init).isNaN = false := by
      rcases hor (f c) init with e | e <;> rw [e] <;> assumption
    obtain ⟨h1, h2, h3⟩ := ih (pick (f c) init) hnan
      (fun p hp => hall p (List.mem_cons_of_mem _ hp))
    refine ⟨?_, ?_, ?_⟩
    · rcases h1 with e | ⟨p, hp, e⟩
      · rcases hor (f c) init with e2 | e2
        · right; exact ⟨c, List.mem_cons_self _ _, by rw [e, e2]⟩
        · left; rw [e, e2]
      · right; exact ⟨p, List.mem_cons_of_mem _ hp, e⟩
    · exact htrans _ _ _ hb.2 h2
    · intro p hp
      rcases List.mem_cons.1 hp with rfl | hp2
      · exact htrans _ _ _ hb.1 h2
      · exact h3 p hp2

theorem takeThrough_subset (bad : IntVect → Bool) : ∀ (cs : List IntVect) (q : IntVect),
    q ∈ takeThrough bad cs → q ∈ cs := by
  intro cs
  induction cs with
  | nil => intro q h; simp [takeThrough] at h
  | cons c cs ih =>
    intro q h
    simp only [takeThrough] at h
    split at h
    · simp only [List.mem_singleton] at h
      simp [h]
    · rcases List.mem_cons.1 h with rfl | h2
      · simp
      · exact List.mem_cons_of_mem _ (ih q h2)

theorem takeThrough_length (bad : IntVect → Bool) : ∀ (cs : List IntVect),
    (takeThrough bad cs).length ≤ cs.length := by
  intro cs
  induction cs with
  | nil => simp [takeThrough]
  | cons c cs ih =>
    simp only [takeThrough]
    split
    · simp
    · simp only [List.length_cons]; omega

theorem Box.cellsFrom_length (b : Box) : ∀ (fuel : Nat) (p : IntVect),
    (b.cellsFrom fuel p).length ≤ fuel := by
  intro fuel
  induction fuel with
  | zero => intro p; simp [Box.cellsFrom]
  | succ n ih =>
    intro p
    simp only [Box.cellsFrom]
    split
    · simp only [List.length_cons]; have := ih (b.next p); omega
    · simp

theorem scanRun_reads (pick : Real → Real → Real) (fab : FArrayBox) (box : Box) (nComp : Int) :
    (scanRun pick fab box nComp).reads =
      (box.smallEnd, nComp) ::
        (takeThrough (fab.badAt nComp) box.cells).map (fun p => (p, nComp)) := by
  unfold scanRun
  rw [scanCells_reads pick fab nComp box.cells _ rfl]
  rfl

/-- Every read of a scan of a non-empty box is at a cell of the box, in the
component asked for. -/
theorem scanRun_reads_mem (pick : Real → Real → Real) (fab : FArrayBox) (box : Box)
    (nComp : Int) (hok : box.ok = true) (r : IntVect × Int)
    (hr : r ∈ (scanRun pick fab box nComp).reads) :
    r.2 = nComp ∧ r.1 ∈ takeThrough (fab.badAt nComp) box.cells := by
  rw [scanRun_reads] at hr
  obtain ⟨cs, hcs⟩ := box.cells_eq_cons hok
  have hsmall : box.smallEnd ∈ takeThrough (fab.badAt nComp) box.cells := by
    rw [hcs]
    simp only [takeThrough]
    split <;> simp
  rcases List.mem_cons.1 hr with rfl | hr2
  · exact ⟨rfl, hsmall⟩
  · obtain ⟨q, hq, rfl⟩ := List.mem_map.1 hr2
    exact ⟨rfl, hq⟩

/-- Two arrays that agree on the cells up to the first bad one are scanned
alike. -/
theorem scanRun_congr (pick : Real → Real → Real) (fab fab2 : FArrayBox) (box : Box)
    (nComp : Int) (hok : box.ok = true)
    (hag : ∀ q, q ∈ takeThrough (fab.badAt nComp) box.cells →
      fab2.data q nComp = fab.data q nComp) :
    scanRun pick fab2 box nComp = scanRun pick fab box nComp := by
  unfold scanRun
  have hinit : scanInit fab2 box nComp = scanInit fab box nComp := by
    obtain ⟨cs, hcs⟩ := box.cells_eq_cons hok
    have hsmall : box.smallEnd ∈ takeThrough (fab.badAt nComp) box.cells := by
      rw [hcs]
      simp only [takeThrough]
      split <;> simp
    simp [scanInit, hag _ hsmall]
  rw [hinit]
  exact scanCells_congr pick fab fab2 nComp box.cells _ hag

/-- A scan that ends with `badVal` unset, over a list of cells that starts with
the cell `dataM` was first read at, has met no bad value, and its `dataM` is
the value of a cell of the list that bounds the values of all of them in the
order `ord`. -/
theorem scanCells_value (pick : Real → Real → Real) (ord : Int → Int → Prop)
    (hrefl : ∀ a, ord a a) (htrans : ∀ a b c, ord a b → ord b c → ord a c)
    (hor : ∀ a b, pick a b = a ∨ pick a b = b)
    (hbound : ∀ a b, a.isNaN = false → b.isNaN = false →
      ord a.scaled (pick a b).scaled ∧ ord b.scaled (pick a b).scaled)
    (fab : FArrayBox) (nComp : Int) (c : IntVect) (cs : List IntVect) (s : ScanState)
    (hs : s.badVal = false) (hd : s.dataM = fab.data c nComp)
    (hend : (scanCells scanCond (scanBody pick fab nComp) (c :: cs) s).badVal = false) :
    (∀ q, q ∈ c :: cs → BadFPClass (fab.data q nComp) = false) ∧
    (∃ q, q ∈ c :: cs ∧
      (scanCells scanCond (scanBody pick fab nComp) (c :: cs) s).dataM = fab.data q nComp) ∧
    ∀ q, q ∈ c :: cs → ord (fab.data q nComp).scaled
      (scanCells scanCond (scanBody pick fab nComp) (c :: cs) s).dataM.scaled := by
  have hall : ∀ q, q ∈ c :: cs → fab.badAt nComp q = false := by
    intro q hq
    by_contra hb
    have := (scanCells_bad pick fab nComp (c :: cs) s hs ⟨q, hq, by simpa using hb⟩).1
    rw [hend] at this
    cases this
  have hgood := scanCells_good pick fab nComp (c :: cs) s hs hall
  have hnan : ∀ q, q ∈ c :: cs → (fab.data q nComp).isNaN = false :=
    fun q hq => Real.isNaN_eq_false_of_good _ (hall q hq)
  have hinit : s.dataM.isNaN = false := by
    rw [hd]; exact hnan c (List.mem_cons_self _ _)
  obtain ⟨h1, h2, h3⟩ := foldl_pick_spec pick ord hrefl htrans hor hbound
    (fun q => fab.data q nComp) (c :: cs) s.dataM hinit hnan
  rw [hgood.2]
  refine ⟨hall, ?_, h3⟩
  rcases h1 with e | ⟨q, hq, e⟩
  · exact ⟨c, List.mem_cons_self _ _, by rw [e, hd]⟩
  · exact ⟨q, hq, e⟩

/-- The scan of a non-empty box without a bad value: `badVal` stays unset and
`dataM` is the value of a cell of the box that bounds the values of all cells
of the box in the order `ord`. -/
theorem scanRun_value (pick : Real → Real → Real) (ord : Int → Int → Prop)
    (hrefl : ∀ a, ord a a) (htrans : ∀ a b c, ord a b → ord b c → ord a c)
    (hor : ∀ a b, pick a b = a ∨ pick a b = b)
    (hbound : ∀ a b, a.isNaN = false → b.isNaN = false →
      ord a.scaled (pick a b).scaled ∧ ord b.scaled (pick a b).scaled)
    (fab : FArrayBox) (box : Box) (nComp : Int) (hok : box.ok = true)
    (hmax : box.belowIntMax = true)
    (hgood : ∀ q, box.contains q = true → BadFPClass (fab.data q nComp) = false) :
    (scanRun pick fab box nComp).badVal = false ∧
    (∃ q, box.contains q = true ∧ (scanRun pick fab box nComp).dataM = fab.data q nComp) ∧
    ∀ q, box.contains q = true →
      ord (fab.data q nComp).scaled (scanRun pick fab box nComp).dataM.scaled := by
  have hall : ∀ q, q ∈ box.cells → fab.badAt nComp q = false :=
    fun q hq => hgood q ((box.mem_cells hmax q).1 hq)
  have hb := (scanCells_good pick fab nComp box.cells (scanInit fab box nComp) rfl hall).1
  obtain ⟨cs, hcs⟩ := box.cells_eq_cons hok
  unfold scanRun at *
  rw [hcs] at hb ⊢
  obtain ⟨_, ⟨q, hq, e⟩, h3⟩ := scanCells_value pick ord hrefl htrans hor hbound fab nComp
    box.smallEnd cs (scanInit fab box nComp) rfl rfl hb
  refine ⟨hb, ⟨q, ?_, e⟩, ?_⟩
  · rw [← box.mem_cells hmax, hcs]; exact hq
  · intro r hr
    apply h3
    rw [← hcs, box.mem_cells hmax]; exact hr

theorem Max_bound (a b : Real) (ha : a.isNaN = false) (hb : b.isNaN = false) :
    (fun x y : Int => x ≤ y) a.scaled (Max a b).scaled ∧
    (fun x y : Int => x ≤ y) b.scaled (Max a b).scaled := Max_ge a b ha hb

theorem Min_bound (a b : Real) (ha : a.isNaN = false) (hb : b.isNaN = false) :
    (fun x y : Int => y ≤ x) a.scaled (Min a b).scaled ∧
    (fun x y : Int => y ≤ x) b.scaled (Min a b).scaled := Min_le a b ha hb

/-- A value that is not bad is converted to fewer characters than the buffer
of `FPMax` and `FPMin` holds. -/
theorem formatE_fits (x : Real) (h : BadFPClass x = false) :
    (formatE x).length < MAXSTRINGWIDTH := by
  have := formatE_length_le x ((BadFPClass_eq_false_iff x).1 h).1
  unfold MAXSTRINGWIDTH
  omega

/-- Whatever the fuel, a loop of `FPMax` or `FPMin` on a non-empty box that
ends with `badVal` unset leaves in `dataM` a value that is not bad. -/
theorem forLoop_scan_good (pick : Real → Real → Real)
    (hor : ∀ a b, pick a b = a ∨ pick a b = b) (fab : FArrayBox) (box : Box) (nComp : Int)
    (hok : box.ok = true) (fuel : Nat) (s : ScanState)
    (hrun : box.forLoop scanCond (scanBody pick fab nComp) fuel box.smallEnd
      (scanInit fab box nComp) = some s)
    (hend : s.badVal = false) : BadFPClass s.dataM = false := by
  have hle := box.allLE_of_contains _ (box.contains_smallEnd hok)
  cases fuel with
  | zero =>
    simp [Box.forLoop, scanCond, scanInit, hle] at hrun
  | succ n =>
    have hs := Box.forLoop_some box scanCond (scanBody pick fab nComp) (n + 1) box.smallEnd
      (scanInit fab box nComp) s hrun
    simp only [Box.cellsFrom, hle, if_true] at hs
    rw [hs] at hend
    obtain ⟨hall, ⟨q, hq, e⟩, _⟩ := scanCells_value pick (fun _ _ => True) (fun _ => trivial)
      (fun _ _ _ _ _ => trivial) hor (fun _ _ _ _ => ⟨trivial, trivial⟩) fab nComp
      box.smallEnd _ (scanInit fab box nComp) rfl rfl hend
    rw [hs, e]
    exact hall q hq

/-! ## Lemmas on the tag loops -/

theorem scanCells_collect : ∀ (cs acc : List IntVect),
    scanCells (fun _ => true) (fun p (l : List IntVect) => l ++ [p]) cs acc = acc ++ cs := by
  intro cs
  induction cs with
  | nil => intro acc; simp [scanCells]
  | cons c cs ih =>
    intro acc
    simp only [scanCells, if_true, ih, List.append_assoc, List.singleton_append]

theorem scanCells_tagCount (tb : TAGBOX) : ∀ (cs : List IntVect) (n : Int),
    scanCells (fun _ => true) (tagCountBody tb) cs n =
      n + ((cs.filter (fun p => !(tb.tag p == TAGBOX.CLEAR))).length : Int) := by
  intro cs
  induction cs with
  | nil => intro n; simp [scanCells]
  | cons c cs ih =>
    intro n
    simp only [scanCells, if_true, ih, tagCountBody, List.filter_cons]
    by_cases h : (!(tb.tag c == TAGBOX.CLEAR)) = true
    · simp only [h, if_true, List.length_cons]; push_cast; ring
    · simp only [h, if_false, Bool.false_eq_true]

theorem scanCells_printTag (tb : TAGBOX) : ∀ (cs : List IntVect) (s : Int × List Out),
    scanCells (fun _ => true) (printTagBody tb) cs s =
      (s.1 + ((cs.filter (fun p => !(tb.tag p == TAGBOX.CLEAR))).length : Int),
        s.2 ++ (cs.filter (fun p => !(tb.tag p == TAGBOX.CLEAR))).flatMap
          (fun p => [Out.intVect p, Out.chr ' '])) := by
  intro cs
  induction cs with
  | nil => intro s; simp [scanCells]
  | cons c cs ih =>
    intro s
    simp only [scanCells, if_true, ih, printTagBody, List.filter_cons]
    by_cases h : (!(tb.tag c == TAGBOX.CLEAR)) = true
    · simp only [h, if_true, List.length_cons, List.flatMap_cons, List.append_assoc]
      refine Prod.ext ?_ ?_
      · simp only; push_cast; ring
      · simp
    · simp only [h, if_false, Bool.false_eq_true]

/-! ## Lemmas on the sample inputs -/

theorem sampleFab_good (a b : Real) (ha : BadFPClass a = false) (hb : BadFPClass b = false)
    (q : IntVect) (n : Int) : BadFPClass ((sampleFab a b).data q n) = false := by
  simp only [sampleFab]
  split <;> assumption

/-- A loop whose condition and index test hold on an invariant that the body
and `Box::next` keep does not end, whatever the fuel. -/
theorem Box.forLoop_none {σ : Type} (b : Box) (cond : σ → Bool) (body : IntVect → σ → σ)
    (inv : IntVect → σ → Prop)
    (hinv : ∀ p s, inv p s →
      cond s = true ∧ p.allLE b.bigEnd = true ∧ inv (b.next p) (body p s)) :
    ∀ (fuel : Nat) (p : IntVect) (s : σ), inv p s → b.forLoop cond body fuel p s = none := by
  intro fuel
  induction fuel with
  | zero =>
    intro p s h
    obtain ⟨h1, h2, _⟩ := hinv p s h
    simp [Box.forLoop, h1, h2]
  | succ n ih =>
    intro p s h
    obtain ⟨h1, h2, h3⟩ := hinv p s h
    simp only [Box.forLoop, h1, h2, Bool.and_self, if_true]
    exact ih _ _ h3

/-- In a box whose big end is `INT_MAX` in the first direction, `Box::next`
from any index that is not above the big end in the other directions only
adds one to the first component, wrapping around, and the index passes the
test `p <= bigEnd`. -/
theorem Box.next_of_maxX (b : Box) (p : IntVect) (hx : b.bigEnd.x = 2147483647)
    (hy : p.y ≤ b.bigEnd.y) (hz : p.z ≤ b.bigEnd.z) :
    b.next p = p.shiftX ∧ p.allLE b.bigEnd = true := by
  have h1 := p.hx
  have h2 := p.shiftX.hx
  have e2 : p.shiftX.y = p.y := rfl
  have e3 : p.shiftX.z = p.z := rfl
  have hle : p.shiftX.allLE b.bigEnd = true := by
    rw [IntVect.allLE_iff]; omega
  constructor
  · simp [Box.next, hle]
  · rw [IntVect.allLE_iff]; omega

/-- The loop of `FPMax` and `FPMin` on a box whose big end is `INT_MAX` in the
first direction does not end when the reads along the row it starts in meet no
bad value. -/
theorem scan_never_ends (pick : Real → Real → Real) (fab : FArrayBox) (box : Box) (nComp : Int)
    (hx : box.bigEnd.x = 2147483647) (y0 z0 : Int) (hy : y0 ≤ box.bigEnd.y)
    (hz : z0 ≤ box.bigEnd.z)
    (hgood : ∀ p : IntVect, p.y = y0 → p.z = z0 → BadFPClass (fab.data p nComp) = false)
    (fuel : Nat) (p : IntVect) (s : ScanState) (hp : p.y = y0 ∧ p.z = z0)
    (hs : s.badVal = false) :
    box.forLoop scanCond (scanBody pick fab nComp) fuel p s = none := by
  apply Box.forLoop_none box scanCond (scanBody pick fab nComp)
    (fun p s => (p.y = y0 ∧ p.z = z0) ∧ s.badVal = false) _ fuel p s ⟨hp, hs⟩
  intro q t ⟨⟨h1, h2⟩, h3⟩
  obtain ⟨e, hle⟩ := box.next_of_maxX q hx (by omega) (by omega)
  refine ⟨by simp [scanCond, h3], hle, ?_, ?_⟩
  · rw [e]; exact ⟨h1, h2⟩
  · rw [scanBody_good pick fab nComp q t (hgood q h1 h2)]
    exact h3

/-- The loops of `TagBoxCount` and `PrintTagBox` on a box whose big end is
`INT_MAX` in the first direction do not end. -/
theorem tag_loop_never_ends {σ : Type} (box : Box) (body : IntVect → σ → σ)
    (hx : box.bigEnd.x = 2147483647) (hok : box.ok = true) (fuel : Nat) (s : σ) :
    box.forLoop (fun _ => true) body fuel box.smallEnd s = none := by
  simp only [Box.ok, IntVect.allLE_iff] at hok
  apply Box.forLoop_none box (fun _ => true) body
    (fun p _ => p.y ≤ box.bigEnd.y ∧ p.z ≤ box.bigEnd.z) _ fuel box.smallEnd s
    ⟨hok.2.1, hok.2.2⟩
  intro q t ⟨h1, h2⟩
  obtain ⟨e, hle⟩ := box.next_of_maxX q hx h1 h2
  refine ⟨rfl, hle, ?_⟩
  rw [e]
  exact ⟨h1, h2⟩

/-- The conversion of any number, bad or not, has at most twelve characters. -/
theorem formatE_length_le_all (x : Real) : (formatE x).length ≤ 12 := by
  by_cases h : x.expo = 2047
  · unfold formatE
    simp only [h, if_true, String.length, padLeft_length]
    cases x.sign <;> by_cases hf : x.frac = 0 <;> simp [hf]
  · exact formatE_length_le x h

/-- `FPMax` and `FPMin` on a region whose intersection with the box of the
array has `INT_MAX` as big end in the first direction do not return, whatever
the fuel, when the reads along the row of the small end meet no bad value. -/
theorem FPMax_FPMin_never_end (fab : FArrayBox) (inBox : Box) (nComp : Int)
    (hok : (inBox.inter fab.box).ok = true)
    (hx : (inBox.inter fab.box).bigEnd.x = 2147483647)
    (hgood : ∀ p : IntVect, p.y = (inBox.inter fab.box).smallEnd.y →
      p.z = (inBox.inter fab.box).smallEnd.z → BadFPClass (fab.data p nComp) = false)
    (fuel : Nat) :
    FPMax fuel fab inBox nComp = none ∧ FPMin fuel fab inBox nComp = none := by
  have hok2 := hok
  simp only [Box.ok, IntVect.allLE_iff] at hok2
  unfold FPMax FPMin
  simp only [hok, Bool.not_true, Bool.false_eq_true, if_false]
  rw [scan_never_ends Max fab _ nComp hx _ _ hok2.2.1 hok2.2.2 hgood fuel _ _ ⟨rfl, rfl⟩ rfl,
    scan_never_ends Min fab _ nComp hx _ _ hok2.2.1 hok2.2.2 hgood fuel _ _ ⟨rfl, rfl⟩ rfl]
  exact ⟨rfl, rfl⟩

theorem goodFabMax_good (q : IntVect) (n : Int) : BadFPClass (goodFabMax.data q n) = false := by
  simp only [goodFabMax, nanFab, Bool.false_eq_true, if_false]
  decide

theorem nanFabOut_good (q : IntVect) (n : Int) (hq : boxMax.contains q = true) :
    BadFPClass (nanFabOut.data q n) = false := by
  rw [Box.contains_iff] at hq
  have hne : ¬ (q = cellOut) := by
    intro h
    rw [h] at hq
    simp only [boxMax, cellA, cellOut] at hq
    omega
  simp only [nanFabOut, nanFab, beq_iff_eq, hne, if_false]
  decide

/-- The marker is not the label followed by the conversion of a number. -/
theorem marker_ne_conversion (label marker msg : String) (m : Real)
    (h : 17 < (label ++ marker).length) (hl : label.length = 5) :
    Outcome.returned (label ++ marker) ≠
      (if (formatE m).length < MAXSTRINGWIDTH then Outcome.returned (label ++ formatE m)
       else Outcome.aborted msg) := by
  have h12 := formatE_length_le_all m
  have hlt : (formatE m).length < MAXSTRINGWIDTH := by unfold MAXSTRINGWIDTH; omega
  rw [if_pos hlt]
  intro he
  have he2 : label ++ marker = label ++ formatE m := by injection he
  rw [he2, String.length_append] at h
  omega

/-! ## The classification -/

/-- C1: a number whose class is positive normal, negative normal, positive
zero or negative zero is not a bad value: `BadFPClass` returns false. -/
theorem BadFPClass_good_classes (fpNumber : Real)
    (h : FP_CLASS fpNumber = FP_POS_NORM ∨ FP_CLASS fpNumber = FP_NEG_NORM ∨
      FP_CLASS fpNumber = FP_POS_ZERO ∨ FP_CLASS fpNumber = FP_NEG_ZERO) :
    BadFPClass fpNumber = false := by
  unfold BadFPClass
  rcases h with h | h | h | h <;> rw [h] <;> decide

/-- The number `1.0` is positive normal and `BadFPClass` returns false on it. -/
theorem BadFPClass_good_classes_witness :
    (FP_CLASS sampleOne = FP_POS_NORM ∨ FP_CLASS sampleOne = FP_NEG_NORM ∨
      FP_CLASS sampleOne = FP_POS_ZERO ∨ FP_CLASS sampleOne = FP_NEG_ZERO) ∧
    BadFPClass sampleOne = false :=
  ⟨by decide, BadFPClass_good_classes sampleOne (by decide)⟩

/-- C2: on every class code `c` other than the four good ones the switch of
`BadFPClass` gives true, so `BadFPClass` returns true on every number of such
a class; `c` ranges over all integers, class codes or not.  The six bad
classes of the header are among these codes. -/
theorem BadFPClass_other_classes :
    (∀ c : Int, c ≠ FP_POS_NORM ∧ c ≠ FP_NEG_NORM ∧ c ≠ FP_POS_ZERO ∧ c ≠ FP_NEG_ZERO →
      BadFPClass.switch c = true ∧
      ∀ fpNumber : Real, FP_CLASS fpNumber = c → BadFPClass fpNumber = true) ∧
    (BadFPClass.switch FP_SNAN = true ∧ BadFPClass.switch FP_QNAN = true ∧
      BadFPClass.switch FP_POS_INF = true ∧ BadFPClass.switch FP_NEG_INF = true ∧
      BadFPClass.switch FP_POS_DENORM = true ∧ BadFPClass.switch FP_NEG_DENORM = true) := by
  refine ⟨?_, by decide⟩
  intro c h
  have key : BadFPClass.switch c = true := by
    unfold BadFPClass.switch
    by_cases h1 : c = FP_SNAN ∨ c = FP_QNAN ∨ c = FP_POS_INF ∨ c = FP_NEG_INF ∨
      c = FP_POS_DENORM ∨ c = FP_NEG_DENORM
    · simp only [h1, if_true]
    · have h2 : ¬ (c = FP_POS_NORM ∨ c = FP_NEG_NORM ∨ c = FP_POS_ZERO ∨ c = FP_NEG_ZERO) := by
        tauto
      simp only [h1, h2, if_false]
  refine ⟨key, ?_⟩
  intro x hx
  unfold BadFPClass
  rw [hx]
  exact key

/-- The integer 42 is no class code and the switch gives true on it; a quiet
NaN has a class other than the four good ones and `BadFPClass` returns true on
it. -/
theorem BadFPClass_other_classes_witness :
    ((42 : Int) ≠ FP_POS_NORM ∧ (42 : Int) ≠ FP_NEG_NORM ∧ (42 : Int) ≠ FP_POS_ZERO ∧
      (42 : Int) ≠ FP_NEG_ZERO) ∧
    BadFPClass.switch 42 = true ∧
    (FP_QNAN ≠ FP_POS_NORM ∧ FP_QNAN ≠ FP_NEG_NORM ∧ FP_QNAN ≠ FP_POS_ZERO ∧
      FP_QNAN ≠ FP_NEG_ZERO) ∧
    BadFPClass sampleNaN = true :=
  ⟨by decide, (BadFPClass_other_classes.1 42 (by decide)).1, by decide,
    (BadFPClass_other_classes.1 FP_QNAN (by decide)).2 sampleNaN (by decide)⟩

/-! ## The min/max scans -/

/-- C9, amended: for a region whose intersection with the box of the array is
not empty and has its big end below `INT_MAX` in every direction, and a
component index valid for the array, `FPMax` and `FPMin` end (with fuel
for one pass per cell of the intersection) without a failed assertion; every
read is at a cell of the region and of the box of the array, in a valid
component; there are at most one read per cell and the initial one; and an
array on the same box that agrees with `fab` on the intersection gives the same
result. -/
theorem FPMax_FPMin_reads_in_bounds (fuel : Nat) (fab : FArrayBox) (inBox : Box) (nComp : Int)
    (hok : (inBox.inter fab.box).ok = true) (hmax : (inBox.inter fab.box).belowIntMax = true)
    (hcomp : 0 ≤ nComp ∧ nComp < fab.nvar) (hfuel : (inBox.inter fab.box).numPts ≤ fuel) :
    (∃ out reads, FPMax fuel fab inBox nComp = some (out, reads) ∧
      out ≠ Outcome.assertFailed ∧
      (∀ r, r ∈ reads → inBox.contains r.1 = true ∧ fab.box.contains r.1 = true ∧
        0 ≤ r.2 ∧ r.2 < fab.nvar) ∧
      reads.length ≤ (inBox.inter fab.box).numPts + 1) ∧
    (∃ out reads, FPMin fuel fab inBox nComp = some (out, reads) ∧
      out ≠ Outcome.assertFailed ∧
      (∀ r, r ∈ reads → inBox.contains r.1 = true ∧ fab.box.contains r.1 = true ∧
        0 ≤ r.2 ∧ r.2 < fab.nvar) ∧
      reads.length ≤ (inBox.inter fab.box).numPts + 1) ∧
    ∀ fab2 : FArrayBox, fab2.box = fab.box →
      (∀ q, (inBox.inter fab.box).contains q = true → fab2.data q nComp = fab.data q nComp) →
      FPMax fuel fab2 inBox nComp = FPMax fuel fab inBox nComp ∧
      FPMin fuel fab2 inBox nComp = FPMin fuel fab inBox nComp := by
  have hmem : ∀ (pick : Real → Real → Real) (r : IntVect × Int),
      r ∈ (scanRun pick fab (inBox.inter fab.box) nComp).reads →
      inBox.contains r.1 = true ∧ fab.box.contains r.1 = true ∧ 0 ≤ r.2 ∧ r.2 < fab.nvar := by
    intro pick r hr
    obtain ⟨h1, h2⟩ := scanRun_reads_mem pick fab _ nComp hok r hr
    have h3 := (Box.mem_cells _ hmax _).1 (takeThrough_subset _ _ _ h2)
    rw [Box.contains_inter] at h3
    rw [h1]
    exact ⟨h3.1, h3.2, hcomp.1, hcomp.2⟩
  have hlen : ∀ (pick : Real → Real → Real),
      (scanRun pick fab (inBox.inter fab.box) nComp).reads.length ≤
        (inBox.inter fab.box).numPts + 1 := by
    intro pick
    rw [scanRun_reads]
    simp only [List.length_cons, List.length_map]
    have h1 := takeThrough_length (fab.badAt nComp) (inBox.inter fab.box).cells
    have h2 := Box.cellsFrom_length (inBox.inter fab.box) (inBox.inter fab.box).numPts
      (inBox.inter fab.box).smallEnd
    unfold Box.cells at h1
    unfold Box.cells
    omega
  have hfin : ∀ (label msg : String) (s : ScanState),
      scanFinish label msg s ≠ Outcome.assertFailed := by
    intro label msg s
    unfold scanFinish
    split
    · dsimp only
      split <;> simp
    · simp
  refine ⟨⟨_, _, FPMax_eq fuel fab inBox nComp hok hmax hfuel, hfin _ _ _, hmem Max, hlen Max⟩,
    ⟨_, _, FPMin_eq fuel fab inBox nComp hok hmax hfuel, hfin _ _ _, hmem Min, hlen Min⟩, ?_⟩
  intro fab2 hbox hag
  have hok2 : (inBox.inter fab2.box).ok = true := by rw [hbox]; exact hok
  have hmax2 : (inBox.inter fab2.box).belowIntMax = true := by rw [hbox]; exact hmax
  have hfuel2 : (inBox.inter fab2.box).numPts ≤ fuel := by rw [hbox]; exact hfuel
  have hag2 : ∀ q, q ∈ takeThrough (fab.badAt nComp) (inBox.inter fab.box).cells →
      fab2.data q nComp = fab.data q nComp :=
    fun q hq => hag q ((Box.mem_cells _ hmax q).1 (takeThrough_subset _ _ _ hq))
  rw [FPMax_eq fuel fab inBox nComp hok hmax hfuel, FPMin_eq fuel fab inBox nComp hok hmax hfuel,
    FPMax_eq fuel fab2 inBox nComp hok2 hmax2 hfuel2,
    FPMin_eq fuel fab2 inBox nComp hok2 hmax2 hfuel2,
    hbox, scanRun_congr Max fab fab2 _ nComp hok hag2,
    scanRun_congr Min fab fab2 _ nComp hok hag2]
  exact ⟨rfl, rfl⟩

/-- C9 as stated fails: on the region `boxMax`, whose big end is `INT_MAX` in
the first direction, with component 0 of an array on the same box, the loop of
`FPMax` and `FPMin` has not ended after one pass per cell of the region, and
its next read is at `(INT_MIN, 0, 0)`, outside the box of the array; the NaN
that this read gives decides the result. -/
theorem FPMax_FPMin_read_outside_array :
    (boxMax.inter nanFabOut.box).ok = true ∧
    ((0 : Int) ≤ 0 ∧ (0 : Int) < nanFabOut.nvar) ∧
    (boxMax.inter nanFabOut.box).numPts = 2 ∧
    FPMax 2 nanFabOut boxMax 0 = none ∧
    FPMin 2 nanFabOut boxMax 0 = none ∧
    FPMax 3 nanFabOut boxMax 0 = some (Outcome.returned "Max: *** Bad Float Value ***",
      [(cellA, 0), (cellA, 0), (cellB, 0), (cellOut, 0)]) ∧
    FPMin 3 nanFabOut boxMax 0 = some (Outcome.returned "Min: *** Bad Float Value ***",
      [(cellA, 0), (cellA, 0), (cellB, 0), (cellOut, 0)]) ∧
    nanFabOut.box.contains cellOut = false ∧
    boxMax.contains cellOut = false := by
  refine ⟨by decide, by decide, by decide, by decide, by decide, by decide, by decide,
    by decide, by decide⟩

/-- C5 as stated fails: the region `boxMax`, whose big end is `INT_MAX` in the
first direction, holds no bad value, and yet `FPMax` and `FPMin` return the
marker, which is neither the conversion of a cell value nor the abort: they
read `(INT_MIN, 0, 0)`, outside the box, and this read gives a NaN. -/
theorem FPMax_FPMin_marker_on_good_region :
    (boxMax.inter nanFabOut.box).ok = true ∧
    (∀ q, (boxMax.inter nanFabOut.box).contains q = true →
      BadFPClass (nanFabOut.data q 0) = false) ∧
    (boxMax.inter nanFabOut.box).numPts ≤ 3 ∧
    (FPMax 3 nanFabOut boxMax 0).map Prod.fst =
      some (Outcome.returned ("Max: " ++ "*** Bad Float Value ***")) ∧
    (FPMin 3 nanFabOut boxMax 0).map Prod.fst =
      some (Outcome.returned ("Min: " ++ "*** Bad Float Value ***")) ∧
    (∀ m : Real, Outcome.returned ("Max: " ++ "*** Bad Float Value ***") ≠
      (if (formatE m).length < MAXSTRINGWIDTH then Outcome.returned ("Max: " ++ formatE m)
       else Outcome.aborted "FPMax: buffer too small")) ∧
    (∀ m : Real, Outcome.returned ("Min: " ++ "*** Bad Float Value ***") ≠
      (if (formatE m).length < MAXSTRINGWIDTH then Outcome.returned ("Min: " ++ formatE m)
       else Outcome.aborted "FPMin: buffer too small")) :=
  ⟨by decide,
    fun q hq => nanFabOut_good q 0 ((Box.contains_inter _ _ q).1 hq).1,
    by decide, by decide, by decide,
    fun m => marker_ne_conversion _ _ _ m (by decide) (by decide),
    fun m => marker_ne_conversion _ _ _ m (by decide) (by decide)⟩

/-- C5, amended: for a region whose non-empty intersection with the box of the
array has its big end below `INT_MAX` in every direction and holds no bad
value, there is a cell value `m` of the intersection that is
greatest among its cell values (for `FPMin`: least) such that `FPMax` returns
`"Max: "` followed by the complete `"%8.4e"` conversion of `m` when this
conversion has fewer than `MAXSTRINGWIDTH = 14` characters, and aborts
otherwise (for `FPMin`: `"Min: "`). -/
theorem FPMax_FPMin_format (fuel : Nat) (fab : FArrayBox) (inBox : Box) (nComp : Int)
    (hok : (inBox.inter fab.box).ok = true) (hmax : (inBox.inter fab.box).belowIntMax = true)
    (hfuel : (inBox.inter fab.box).numPts ≤ fuel)
    (hgood : ∀ q, (inBox.inter fab.box).contains q = true →
      BadFPClass (fab.data q nComp) = false) :
    MAXSTRINGWIDTH = 14 ∧
    (∃ m : Real, (∃ q, (inBox.inter fab.box).contains q = true ∧ m = fab.data q nComp) ∧
      (∀ q, (inBox.inter fab.box).contains q = true → (fab.data q nComp).toRat ≤ m.toRat) ∧
      (FPMax fuel fab inBox nComp).map Prod.fst = some
        (if (formatE m).length < MAXSTRINGWIDTH then Outcome.returned ("Max: " ++ formatE m)
         else Outcome.aborted "FPMax: buffer too small")) ∧
    (∃ m : Real, (∃ q, (inBox.inter fab.box).contains q = true ∧ m = fab.data q nComp) ∧
      (∀ q, (inBox.inter fab.box).contains q = true → m.toRat ≤ (fab.data q nComp).toRat) ∧
      (FPMin fuel fab inBox nComp).map Prod.fst = some
        (if (formatE m).length < MAXSTRINGWIDTH then Outcome.returned ("Min: " ++ formatE m)
         else Outcome.aborted "FPMin: buffer too small")) := by
  obtain ⟨a1, a2, a3⟩ := scanRun_value Max (fun x y => x ≤ y) (fun a => le_refl a)
    (fun a b c h1 h2 => le_trans h1 h2) Max_eq_or Max_bound fab _ nComp hok hmax hgood
  obtain ⟨b1, b2, b3⟩ := scanRun_value Min (fun x y => y ≤ x) (fun a => le_refl a)
    (fun a b c h1 h2 => le_trans h2 h1) Min_eq_or Min_bound fab _ nComp hok hmax hgood
  refine ⟨rfl, ⟨_, a2, fun q hq => Real.toRat_le _ _ (a3 q hq), ?_⟩,
    ⟨_, b2, fun q hq => Real.toRat_le _ _ (b3 q hq), ?_⟩⟩
  · rw [FPMax_eq fuel fab inBox nComp hok hmax hfuel]
    simp only [Option.map_some']
    rw [scanFinish_good _ _ _ a1]
  · rw [FPMin_eq fuel fab inBox nComp hok hmax hfuel]
    simp only [Option.map_some']
    rw [scanFinish_good _ _ _ b1]

/-- C4, amended: for a region whose non-empty intersection with the box of the
array has its big end below `INT_MAX` in every direction and holds no bad
value, the value `m` that `FPMax` converts is a cell value
of the intersection and is greater than or equal to every cell value of it
(for `FPMin`: less than or equal); the string returned is `"Max: "` (`"Min: "`)
followed by the `"%8.4e"` conversion of `m`. -/
theorem FPMax_FPMin_bound (fuel : Nat) (fab : FArrayBox) (inBox : Box) (nComp : Int)
    (hok : (inBox.inter fab.box).ok = true) (hmax : (inBox.inter fab.box).belowIntMax = true)
    (hfuel : (inBox.inter fab.box).numPts ≤ fuel)
    (hgood : ∀ q, (inBox.inter fab.box).contains q = true →
      BadFPClass (fab.data q nComp) = false) :
    (∃ m : Real, (∃ q, (inBox.inter fab.box).contains q = true ∧ m = fab.data q nComp) ∧
      (∀ q, (inBox.inter fab.box).contains q = true →
        (fab.data q nComp).toRat ≤ m.toRat) ∧
      (FPMax fuel fab inBox nComp).map Prod.fst =
        some (Outcome.returned ("Max: " ++ formatE m))) ∧
    (∃ m : Real, (∃ q, (inBox.inter fab.box).contains q = true ∧ m = fab.data q nComp) ∧
      (∀ q, (inBox.inter fab.box).contains q = true →
        m.toRat ≤ (fab.data q nComp).toRat) ∧
      (FPMin fuel fab inBox nComp).map Prod.fst =
        some (Outcome.returned ("Min: " ++ formatE m))) := by
  obtain ⟨a1, ⟨qa, ha, ea⟩, a3⟩ := scanRun_value Max (fun x y => x ≤ y) (fun a => le_refl a)
    (fun a b c h1 h2 => le_trans h1 h2) Max_eq_or Max_bound fab _ nComp hok hmax hgood
  obtain ⟨b1, ⟨qb, hb, eb⟩, b3⟩ := scanRun_value Min (fun x y => y ≤ x) (fun a => le_refl a)
    (fun a b c h1 h2 => le_trans h2 h1) Min_eq_or Min_bound fab _ nComp hok hmax hgood
  refine ⟨⟨_, ⟨qa, ha, ea⟩, fun q hq => Real.toRat_le _ _ (a3 q hq), ?_⟩,
    ⟨_, ⟨qb, hb, eb⟩, fun q hq => Real.toRat_le _ _ (b3 q hq), ?_⟩⟩
  · rw [FPMax_eq fuel fab inBox nComp hok hmax hfuel]
    simp only [Option.map_some']
    rw [scanFinish_good _ _ _ a1, if_pos (formatE_fits _ (by rw [ea]; exact hgood qa ha))]
  · rw [FPMin_eq fuel fab inBox nComp hok hmax hfuel]
    simp only [Option.map_some']
    rw [scanFinish_good _ _ _ b1, if_pos (formatE_fits _ (by rw [eb]; exact hgood qb hb))]

/-- C10: the `"%8.4e"` conversion of a value that is not bad has at most 12
characters, fewer than `MAXSTRINGWIDTH`, its exponent being between -308 and
308; and no call of `FPMax` or `FPMin`, on any array, region and component and
with any fuel, ends in the abort. -/
theorem FPMax_FPMin_no_abort :
    (∀ x : Real, BadFPClass x = false →
      (formatE x).length ≤ 12 ∧ 12 < MAXSTRINGWIDTH ∧
      -308 ≤ (sciParts x.mag).2 ∧ (sciParts x.mag).2 ≤ 308) ∧
    ∀ (fuel : Nat) (fab : FArrayBox) (inBox : Box) (nComp : Int) (msg : String)
      (reads : List (IntVect × Int)),
      FPMax fuel fab inBox nComp ≠ some (Outcome.aborted msg, reads) ∧
      FPMin fuel fab inBox nComp ≠ some (Outcome.aborted msg, reads) := by
  have hfin : ∀ (label m : String) (s : ScanState),
      (s.badVal = false → BadFPClass s.dataM = false) →
      ∀ msg, scanFinish label m s ≠ Outcome.aborted msg := by
    intro label m s hs msg
    by_cases hb : s.badVal = true
    · rw [scanFinish_bad _ _ _ hb]; simp
    · have hb2 : s.badVal = false := by simpa using hb
      rw [scanFinish_good _ _ _ hb2, if_pos (formatE_fits _ (hs hb2))]
      simp
  refine ⟨fun x hx => ⟨formatE_length_le x ((BadFPClass_eq_false_iff x).1 hx).1, by decide,
    sciParts_exp_range x hx⟩, ?_⟩
  intro fuel fab inBox nComp msg reads
  constructor
  · unfold FPMax
    by_cases hok : (inBox.inter fab.box).ok = true
    · simp only [hok, Bool.not_true, Bool.false_eq_true, if_false]
      cases hrun : (inBox.inter fab.box).forLoop scanCond (scanBody Max fab nComp) fuel
          (inBox.inter fab.box).smallEnd (scanInit fab (inBox.inter fab.box) nComp) with
      | none => simp
      | some s =>
        simp only [ne_eq, Option.some.injEq, Prod.mk.injEq, not_and]
        intro h
        exact absurd h (hfin _ _ s
          (forLoop_scan_good Max Max_eq_or fab _ nComp hok fuel s hrun) msg)
    · simp [hok]
  · unfold FPMin
    by_cases hok : (inBox.inter fab.box).ok = true
    · simp only [hok, Bool.not_true, Bool.false_eq_true, if_false]
      cases hrun : (inBox.inter fab.box).forLoop scanCond (scanBody Min fab nComp) fuel
          (inBox.inter fab.box).smallEnd (scanInit fab (inBox.inter fab.box) nComp) with
      | none => simp
      | some s =>
        simp only [ne_eq, Option.some.injEq, Prod.mk.injEq, not_and]
        intro h
        exact absurd h (hfin _ _ s
          (forLoop_scan_good Min Min_eq_or fab _ nComp hok fuel s hrun) msg)
    · simp [hok]

/-- C4 as stated fails, in two ways.  On the two cells `1 + 2^-52` and `1.0`,
none of them bad, `FPMax` returns `"Max: 1.0000e+00"`, and the number 1 printed
there is smaller than the cell value `1 + 2^-52`; on two cells `2 - 2^-52`,
`FPMin` returns `"Min: 2.0000e+00"`, and the number 2 printed there is greater
than the cell value.  And on the region `boxMax`, whose big end is `INT_MAX` in
the first direction and which holds no bad value, `FPMax` and `FPMin` report
nothing, whatever the fuel: the index wraps around to `INT_MIN` and the loop
goes on outside the box. -/
theorem FPMax_FPMin_printed_crosses_cell :
    ((sampleBox.inter (sampleFab sampleOneUp sampleOne).box).contains cell0 = true ∧
      BadFPClass ((sampleFab sampleOneUp sampleOne).data cell0 0) = false ∧
      BadFPClass ((sampleFab sampleOneUp sampleOne).data cell1 0) = false ∧
      (FPMax 2 (sampleFab sampleOneUp sampleOne) sampleBox 0).map Prod.fst =
        some (Outcome.returned "Max: 1.0000e+00") ∧
      reportedNumber (Outcome.returned "Max: 1.0000e+00") = some (false, 10000, 0) ∧
      sciValue false 10000 0 < ((sampleFab sampleOneUp sampleOne).data cell0 0).toRat) ∧
    ((sampleBox.inter (sampleFab sampleTwoDown sampleTwoDown).box).contains cell0 = true ∧
      BadFPClass ((sampleFab sampleTwoDown sampleTwoDown).data cell0 0) = false ∧
      BadFPClass ((sampleFab sampleTwoDown sampleTwoDown).data cell1 0) = false ∧
      (FPMin 2 (sampleFab sampleTwoDown sampleTwoDown) sampleBox 0).map Prod.fst =
        some (Outcome.returned "Min: 2.0000e+00") ∧
      reportedNumber (Outcome.returned "Min: 2.0000e+00") = some (false, 20000, 0) ∧
      ((sampleFab sampleTwoDown sampleTwoDown).data cell0 0).toRat <
        sciValue false 20000 0) ∧
    ((boxMax.inter goodFabMax.box).ok = true ∧
      (∀ q, (boxMax.inter goodFabMax.box).contains q = true →
        BadFPClass (goodFabMax.data q 0) = false) ∧
      (∀ fuel, FPMax fuel goodFabMax boxMax 0 = none ∧
        FPMin fuel goodFabMax boxMax 0 = none)) := by
  refine ⟨⟨by decide, by decide, by decide, by decide, by decide, ?_⟩,
    ⟨by decide, by decide, by decide, by decide, by decide, ?_⟩,
    ⟨by decide, fun q _ => goodFabMax_good q 0,
      fun fuel => FPMax_FPMin_never_end goodFabMax boxMax 0 (by decide) (by decide)
        (fun q _ _ => goodFabMax_good q 0) fuel⟩⟩
  · simp only [sampleFab, if_true, Real.toRat, Real.scaled, Real.mag, sampleOneUp, sciValue]
    norm_num
  · simp only [sampleFab, if_true, Real.toRat, Real.scaled, Real.mag, sampleTwoDown, sciValue]
    norm_num

/-- On the two cells `1 + 2^-52` and `1.0` the value converted by `FPMax` is a
cell value that bounds both, and so is the one converted by `FPMin`. -/
theorem FPMax_FPMin_bound_witness :
    ((sampleBox.inter (sampleFab sampleOneUp sampleOne).box).ok = true ∧
      (sampleBox.inter (sampleFab sampleOneUp sampleOne).box).belowIntMax = true ∧
      (sampleBox.inter (sampleFab sampleOneUp sampleOne).box).numPts ≤ 2) ∧
    (∃ m : Real, (∀ q, (sampleBox.inter (sampleFab sampleOneUp sampleOne).box).contains q = true →
        ((sampleFab sampleOneUp sampleOne).data q 0).toRat ≤ m.toRat) ∧
      (FPMax 2 (sampleFab sampleOneUp sampleOne) sampleBox 0).map Prod.fst =
        some (Outcome.returned ("Max: " ++ formatE m))) ∧
    (∃ m : Real, (∀ q, (sampleBox.inter (sampleFab sampleOneUp sampleOne).box).contains q = true →
        m.toRat ≤ ((sampleFab sampleOneUp sampleOne).data q 0).toRat) ∧
      (FPMin 2 (sampleFab sampleOneUp sampleOne) sampleBox 0).map Prod.fst =
        some (Outcome.returned ("Min: " ++ formatE m))) :=
  ⟨by decide,
    (FPMax_FPMin_bound 2 (sampleFab sampleOneUp sampleOne) sampleBox 0 (by decide) (by decide)
      (by decide) (fun q _ => sampleFab_good _ _ (by decide) (by decide) q 0)).1.imp
        (fun _ h => ⟨h.2.1, h.2.2⟩),
    (FPMax_FPMin_bound 2 (sampleFab sampleOneUp sampleOne) sampleBox 0 (by decide) (by decide)
      (by decide) (fun q _ => sampleFab_good _ _ (by decide) (by decide) q 0)).2.imp
        (fun _ h => ⟨h.2.1, h.2.2⟩)⟩

/-- On the two cells `1 + 2^-52` and `-2.0` the conversions fit the buffer:
`FPMax` returns `"Max: 1.0000e+00"` and `FPMin` returns `"Min: -2.0000e+00"`. -/
theorem FPMax_FPMin_format_witness :
    ((sampleBox.inter (sampleFab sampleOneUp sampleMinusTwo).box).ok = true ∧
      (sampleBox.inter (sampleFab sampleOneUp sampleMinusTwo).box).belowIntMax = true ∧
      (sampleBox.inter (sampleFab sampleOneUp sampleMinusTwo).box).numPts ≤ 2) ∧
    (∃ m : Real, (FPMax 2 (sampleFab sampleOneUp sampleMinusTwo) sampleBox 0).map Prod.fst = some
        (if (formatE m).length < MAXSTRINGWIDTH then Outcome.returned ("Max: " ++ formatE m)
         else Outcome.aborted "FPMax: buffer too small")) ∧
    (FPMax 2 (sampleFab sampleOneUp sampleMinusTwo) sampleBox 0).map Prod.fst =
      some (Outcome.returned "Max: 1.0000e+00") ∧
    (FPMin 2 (sampleFab sampleOneUp sampleMinusTwo) sampleBox 0).map Prod.fst =
      some (Outcome.returned "Min: -2.0000e+00") :=
  ⟨by decide,
    (FPMax_FPMin_format 2 (sampleFab sampleOneUp sampleMinusTwo) sampleBox 0 (by decide)
      (by decide) (by decide) (fun q _ => sampleFab_good _ _ (by decide) (by decide) q 0)).2.1.imp
        (fun _ h => h.2.2),
    by decide, by decide⟩

/-- An array of two good cells scanned over its whole box in component 0:
three reads, all in bounds. -/
theorem FPMax_FPMin_reads_in_bounds_witness :
    ((sampleBox.inter (sampleFab sampleOneUp sampleOne).box).ok = true ∧
      (sampleBox.inter (sampleFab sampleOneUp sampleOne).box).belowIntMax = true ∧
      ((0 : Int) ≤ 0 ∧ (0 : Int) < (sampleFab sampleOneUp sampleOne).nvar) ∧
      (sampleBox.inter (sampleFab sampleOneUp sampleOne).box).numPts ≤ 2) ∧
    (∃ out reads, FPMax 2 (sampleFab sampleOneUp sampleOne) sampleBox 0 = some (out, reads) ∧
      out ≠ Outcome.assertFailed ∧
      (∀ r, r ∈ reads → sampleBox.contains r.1 = true ∧
        (sampleFab sampleOneUp sampleOne).box.contains r.1 = true ∧
        0 ≤ r.2 ∧ r.2 < (sampleFab sampleOneUp sampleOne).nvar) ∧
      reads.length ≤ (sampleBox.inter (sampleFab sampleOneUp sampleOne).box).numPts + 1) ∧
    FPMax 2 (sampleFab sampleOneUp sampleOne) sampleBox 0 =
      some (Outcome.returned "Max: 1.0000e+00", [(cell0, 0), (cell0, 0), (cell1, 0)]) :=
  ⟨by decide,
    (FPMax_FPMin_reads_in_bounds 2 (sampleFab sampleOneUp sampleOne) sampleBox 0 (by decide)
      (by decide) (by decide) (by decide)).1,
    by decide⟩

/-- The conversion of `-2.0`, which is not bad, has 11 characters. -/
theorem FPMax_FPMin_no_abort_witness :
    BadFPClass sampleMinusTwo = false ∧
    ((formatE sampleMinusTwo).length ≤ 12 ∧ 12 < MAXSTRINGWIDTH ∧
      -308 ≤ (sciParts sampleMinusTwo.mag).2 ∧ (sciParts sampleMinusTwo.mag).2 ≤ 308) ∧
    formatE sampleMinusTwo = "-2.0000e+00" :=
  ⟨by decide, FPMax_FPMin_no_abort.1 sampleMinusTwo (by decide), by decide⟩

/-! ## Tag counts -/

/-- C6, amended: for a tag box whose box has its big end below `INT_MAX` in
every direction, and with fuel for one pass per cell, `TagBoxCount` prints as
total the number of cells of the box whose tag is not `CLEAR`, and `PrintTagBox`
prints these cells and the same total.  The loop over the box visits the cells
of the list `cells`, which holds every cell of the box exactly once; the cells
counted (`taggedCells`) are the cells of the box with a tag other than `CLEAR`,
each once; the total is 0 when all tags are `CLEAR`. -/
theorem TagBoxCount_PrintTagBox_total (fuel : Nat) (tb : TAGBOX)
    (hmax : tb.box.belowIntMax = true) (hfuel : tb.box.numPts ≤ fuel) :
    TagBoxCount fuel tb = some [Out.str "Total tagged cells = ",
      Out.long ((taggedCells tb).length : Int), Out.endl] ∧
    PrintTagBox fuel tb = some ([Out.str "TagBox: box = ", Out.box tb.box, Out.str ":\n"] ++
      (taggedCells tb).flatMap (fun p => [Out.intVect p, Out.chr ' ']) ++
      [Out.str "Total tagged cells = ", Out.long ((taggedCells tb).length : Int), Out.endl]) ∧
    (tb.box.forLoop (fun _ => true) (fun p (l : List IntVect) => l ++ [p]) fuel
        tb.box.smallEnd [] = some tb.box.cells ∧
      tb.box.cells.Nodup ∧ ∀ p, p ∈ tb.box.cells ↔ tb.box.contains p = true) ∧
    ((taggedCells tb).Nodup ∧
      ∀ p, p ∈ taggedCells tb ↔ (tb.box.contains p = true ∧ tb.tag p ≠ TAGBOX.CLEAR)) ∧
    ((∀ p, tb.box.contains p = true → tb.tag p = TAGBOX.CLEAR) →
      (taggedCells tb).length = 0) := by
  have hmem : ∀ p, p ∈ taggedCells tb ↔
      (tb.box.contains p = true ∧ tb.tag p ≠ TAGBOX.CLEAR) := by
    intro p
    unfold taggedCells
    rw [List.mem_filter, Box.mem_cells _ hmax]
    simp
  refine ⟨?_, ?_, ⟨?_, tb.box.nodup_cells hmax, tb.box.mem_cells hmax⟩,
    ⟨(tb.box.nodup_cells hmax).filter _, hmem⟩, ?_⟩
  · unfold TagBoxCount
    simp only [Box.forLoop_cells _ hmax _ _ _ _ hfuel, scanCells_tagCount, taggedCells, zero_add]
  · unfold PrintTagBox
    simp only [Box.forLoop_cells _ hmax _ _ _ _ hfuel, scanCells_printTag, taggedCells, zero_add]
  · rw [Box.forLoop_cells _ hmax _ _ _ _ hfuel, scanCells_collect, List.nil_append]
  · intro hall
    rw [List.length_eq_zero, List.eq_nil_iff_forall_not_mem]
    intro p hp
    exact ((hmem p).1 hp).2 (hall p ((hmem p).1 hp).1)

/-- A tag box of two cells with one tag set: the total printed is 1. -/
theorem TagBoxCount_PrintTagBox_total_witness :
    ((sampleTags 0 2).box.belowIntMax = true ∧ (sampleTags 0 2).box.numPts ≤ 2) ∧
    TagBoxCount 2 (sampleTags 0 2) =
      some [Out.str "Total tagged cells = ", Out.long 1, Out.endl] ∧
    PrintTagBox 2 (sampleTags 0 2) =
      some [Out.str "TagBox: box = ", Out.box sampleBox, Out.str ":\n",
        Out.intVect cell1, Out.chr ' ',
        Out.str "Total tagged cells = ", Out.long 1, Out.endl] :=
  ⟨by decide,
    (TagBoxCount_PrintTagBox_total 2 (sampleTags 0 2) (by decide) (by decide)).1.trans
      (by decide),
    (TagBoxCount_PrintTagBox_total 2 (sampleTags 0 2) (by decide) (by decide)).2.1.trans
      (by decide)⟩

/-- C6 as stated fails: on a tag box over `boxMax`, whose big end is `INT_MAX`
in the first direction, neither `TagBoxCount` nor `PrintTagBox` reports a
total, whatever the fuel: after the two cells of the box the index wraps around
to `(INT_MIN, 0, 0)`, which is outside the box and passes the test
`p <= bigEnd`. -/
theorem TagBoxCount_PrintTagBox_never_end :
    clearTagsMax.box.ok = true ∧
    clearTagsMax.box.numPts = 2 ∧
    (∀ fuel, TagBoxCount fuel clearTagsMax = none ∧ PrintTagBox fuel clearTagsMax = none) ∧
    clearTagsMax.box.cellsFrom 3 clearTagsMax.box.smallEnd = [cellA, cellB, cellOut] ∧
    clearTagsMax.box.contains cellOut = false := by
  refine ⟨by decide, by decide, ?_, by decide, by decide⟩
  intro fuel
  unfold TagBoxCount PrintTagBox
  dsimp only
  rw [tag_loop_never_ends clearTagsMax.box (tagCountBody clearTagsMax) (by decide)
      (by decide) fuel,
    tag_loop_never_ends clearTagsMax.box (printTagBody clearTagsMax) (by decide)
      (by decide) fuel]
  exact ⟨rfl, rfl⟩

/-! ## Dumps -/

/-- C7: `WriteFab` and `WriteMultiFab` return false exactly when the file
cannot be opened for writing; in that case the files are as before and no
`writeOn` routine has been called; when the file opens, the `writeOn` routine
of the object is called once, the file holds the dump, and the result is true. -/
theorem WriteFab_WriteMultiFab_result (dumpFab : FArrayBox → List Nat)
    (dumpMF : MultiFab → List Nat) (fab : FArrayBox) (mf : MultiFab) (file : String)
    (w : World) :
    ((WriteFab dumpFab fab file w).1 = false ↔ w.canOpen file = false) ∧
    ((WriteMultiFab dumpMF mf file w).1 = false ↔ w.canOpen file = false) ∧
    (w.canOpen file = false →
      (WriteFab dumpFab fab file w).2.files = w.files ∧
      (WriteFab dumpFab fab file w).2.writeOnCalls = w.writeOnCalls ∧
      (WriteMultiFab dumpMF mf file w).2.files = w.files ∧
      (WriteMultiFab dumpMF mf file w).2.writeOnCalls = w.writeOnCalls) ∧
    (w.canOpen file = true →
      (WriteFab dumpFab fab file w).1 = true ∧
      (WriteFab dumpFab fab file w).2.writeOnCalls = w.writeOnCalls + 1 ∧
      (WriteFab dumpFab fab file w).2.files file = some (dumpFab fab) ∧
      (WriteMultiFab dumpMF mf file w).1 = true ∧
      (WriteMultiFab dumpMF mf file w).2.writeOnCalls = w.writeOnCalls + 1 ∧
      (WriteMultiFab dumpMF mf file w).2.files file = some (dumpMF mf)) := by
  unfold WriteFab WriteMultiFab World.openOut
  by_cases h : w.canOpen file = true
  · simp [h, World.writeOn]
  · have h2 : w.canOpen file = false := by simpa using h
    simp [h2]

/-- In a world where only `"out.fab"` opens: a dump to `"nodir/out.fab"`
returns false and leaves no file, a dump to `"out.fab"` returns true and
leaves the bytes of the dump. -/
theorem WriteFab_WriteMultiFab_result_witness :
    (sampleWorld.canOpen "nodir/out.fab" = false ∧ sampleWorld.canOpen "out.fab" = true) ∧
    ((WriteFab (fun _ => [1, 2, 3]) (sampleFab sampleOne sampleOne) "nodir/out.fab"
        sampleWorld).1 = false ∧
      (WriteFab (fun _ => [1, 2, 3]) (sampleFab sampleOne sampleOne) "nodir/out.fab"
        sampleWorld).2.writeOnCalls = 0) ∧
    ((WriteFab (fun _ => [1, 2, 3]) (sampleFab sampleOne sampleOne) "out.fab"
        sampleWorld).1 = true ∧
      (WriteFab (fun _ => [1, 2, 3]) (sampleFab sampleOne sampleOne) "out.fab"
        sampleWorld).2.files "out.fab" = some [1, 2, 3]) :=
  ⟨by decide,
    ⟨((WriteFab_WriteMultiFab_result (fun _ => [1, 2, 3]) (fun _ => [])
        (sampleFab sampleOne sampleOne) ⟨[], []⟩ "nodir/out.fab" sampleWorld).1).2 (by decide),
      ((WriteFab_WriteMultiFab_result (fun _ => [1, 2, 3]) (fun _ => [])
        (sampleFab sampleOne sampleOne) ⟨[], []⟩ "nodir/out.fab" sampleWorld).2.2.1
          (by decide)).2.1⟩,
    ⟨((WriteFab_WriteMultiFab_result (fun _ => [1, 2, 3]) (fun _ => [])
        (sampleFab sampleOne sampleOne) ⟨[], []⟩ "out.fab" sampleWorld).2.2.2 (by decide)).1,
      ((WriteFab_WriteMultiFab_result (fun _ => [1, 2, 3]) (fun _ => [])
        (sampleFab sampleOne sampleOne) ⟨[], []⟩ "out.fab" sampleWorld).2.2.2
          (by decide)).2.2.1⟩⟩

end PeleLM
